import Mathlib

/-!
# koi: tick-digit statistics and prediction engine (`src/script.js`)

A shallow embedding of the engine part of `script.js`: the rolling tick window
(`handleTick`), the digit extraction, the statistics (`updateStats`), the digit histogram
(`updateDigitHeatmap`) and the heuristic call (`generatePrediction`), together with the
listeners that change the tracked symbol and the strategy.

* JavaScript numbers are IEEE-754 binary64 values.  They are modelled exactly: a finite number
  is the rational it denotes, and every arithmetic operation rounds its exact result to the
  nearest binary64 value, ties to even (`roundQ`, `fl`).  Negative zero is identified with
  zero; none of the operations used by the program can tell them apart.
* A string produced by `toFixed` is kept as the datum that determines it (`NumStr`), from
  which its characters (`NumStr.chars`) and the number it converts to (`NumStr.toNumber`)
  are computed.
* The global `State` is passed explicitly; a built-in that can throw returns `Except`.
* The page is present only through the two elements the analysers write
  (`statsContent`, `digitGrid`); the socket, the chart, the login form and the timers are not
  part of the engine and are left out.

Definitions come first (the embedding, then the few specification-side ones), the theorems
after them.
-/

namespace Koi

/-! ## Binary64 arithmetic -/

/-- Nearest integer to `y`, ties going to the even neighbour. -/
def roundHalfEven (y : ℚ) : ℤ :=
  let f := ⌊y⌋
  if y - f < 1 / 2 then f
  else if 1 / 2 < y - f then f + 1
  else if f % 2 = 0 then f else f + 1

/-- Floor of the base-two logarithm, by halving; `fuel` bounds the number of halvings. -/
def log2Fuel : ℕ → ℕ → ℕ
  | 0, _ => 0
  | fuel + 1, n => if 2 ≤ n then log2Fuel fuel (n / 2) + 1 else 0

/-- Floor of the base-two logarithm of a natural number (`0` for `0`). -/
def ilog2 (n : ℕ) : ℕ := log2Fuel n n

/-- Binary exponent of the binade of `x`: the `e` with `2^e ≤ |x| < 2^(e+1)`, never below
the exponent `-1022` of the subnormal range. -/
def binade (x : ℚ) : ℤ :=
  let p := x.num.natAbs
  let q := x.den
  let a := ilog2 p
  let b := ilog2 q
  let e : ℤ := if q * 2 ^ (a - b) ≤ p * 2 ^ (b - a) then (a : ℤ) - b else (a : ℤ) - b - 1
  max e (-1022)

/-- Power of two with an integer exponent. -/
def pow2 (k : ℤ) : ℚ := (2 : ℚ) ^ k

/-- Round a rational to the nearest value with a 53-bit significand in its binade
(round-to-nearest, ties-to-even), the exponent range being unbounded above. -/
def roundQ (x : ℚ) : ℚ :=
  roundHalfEven (x / pow2 (binade x - 52)) * pow2 (binade x - 52)

/-- A JavaScript Number: a finite binary64 value, an infinity, or NaN. -/
inductive JSNum
  | fin (q : ℚ)
  | posInf
  | negInf
  | nan
  deriving DecidableEq

instance : OfNat JSNum n := ⟨JSNum.fin n⟩

/-- The binary64 value nearest to the exact result `x`; overflow gives an infinity. -/
def fl (x : ℚ) : JSNum :=
  let r := roundQ x
  if pow2 1024 ≤ r then JSNum.posInf
  else if r ≤ -pow2 1024 then JSNum.negInf
  else JSNum.fin r

/-- A decimal literal of the source text, read as the nearest binary64 value. -/
def jsLit (q : ℚ) : JSNum := fl q

/-- An array length or an element count as a Number (exact: such values are below `2^32`). -/
def ofNat (n : ℕ) : JSNum := JSNum.fin n

/-- Unary minus. -/
def jsNeg : JSNum → JSNum
  | JSNum.fin a => JSNum.fin (-a)
  | JSNum.posInf => JSNum.negInf
  | JSNum.negInf => JSNum.posInf
  | JSNum.nan => JSNum.nan

/-- The `+` operator on Numbers. -/
def jsAdd : JSNum → JSNum → JSNum
  | JSNum.nan, _ => JSNum.nan
  | _, JSNum.nan => JSNum.nan
  | JSNum.fin a, JSNum.fin b => fl (a + b)
  | JSNum.posInf, JSNum.negInf => JSNum.nan
  | JSNum.negInf, JSNum.posInf => JSNum.nan
  | JSNum.posInf, _ => JSNum.posInf
  | _, JSNum.posInf => JSNum.posInf
  | JSNum.negInf, _ => JSNum.negInf
  | _, JSNum.negInf => JSNum.negInf

/-- The `-` operator on Numbers. -/
def jsSub (a b : JSNum) : JSNum := jsAdd a (jsNeg b)

/-- The `*` operator on Numbers. -/
def jsMul : JSNum → JSNum → JSNum
  | JSNum.nan, _ => JSNum.nan
  | _, JSNum.nan => JSNum.nan
  | JSNum.fin a, JSNum.fin b => fl (a * b)
  | JSNum.fin a, JSNum.posInf =>
      if a = 0 then JSNum.nan else if 0 < a then JSNum.posInf else JSNum.negInf
  | JSNum.fin a, JSNum.negInf =>
      if a = 0 then JSNum.nan else if 0 < a then JSNum.negInf else JSNum.posInf
  | JSNum.posInf, JSNum.fin b =>
      if b = 0 then JSNum.nan else if 0 < b then JSNum.posInf else JSNum.negInf
  | JSNum.negInf, JSNum.fin b =>
      if b = 0 then JSNum.nan else if 0 < b then JSNum.negInf else JSNum.posInf
  | JSNum.posInf, JSNum.posInf => JSNum.posInf
  | JSNum.negInf, JSNum.negInf => JSNum.posInf
  | JSNum.posInf, JSNum.negInf => JSNum.negInf
  | JSNum.negInf, JSNum.posInf => JSNum.negInf

/-- The `/` operator on Numbers; a zero divisor is the positive zero. -/
def jsDiv : JSNum → JSNum → JSNum
  | JSNum.nan, _ => JSNum.nan
  | _, JSNum.nan => JSNum.nan
  | JSNum.fin a, JSNum.fin b =>
      if b = 0 then
        (if a = 0 then JSNum.nan else if 0 < a then JSNum.posInf else JSNum.negInf)
      else fl (a / b)
  | JSNum.fin _, JSNum.posInf => JSNum.fin 0
  | JSNum.fin _, JSNum.negInf => JSNum.fin 0
  | JSNum.posInf, JSNum.fin b => if 0 ≤ b then JSNum.posInf else JSNum.negInf
  | JSNum.negInf, JSNum.fin b => if 0 ≤ b then JSNum.negInf else JSNum.posInf
  | _, _ => JSNum.nan

/-- The `<` operator on Numbers (false as soon as an operand is NaN). -/
def jsLt : JSNum → JSNum → Bool
  | JSNum.fin a, JSNum.fin b => decide (a < b)
  | JSNum.fin _, JSNum.posInf => true
  | JSNum.negInf, JSNum.fin _ => true
  | JSNum.negInf, JSNum.posInf => true
  | _, _ => false

/-- The `>` operator on Numbers. -/
def jsGt (a b : JSNum) : Bool := jsLt b a

/-- The function `Math.max` on two arguments. -/
def mathMax (a b : JSNum) : JSNum :=
  if a = JSNum.nan ∨ b = JSNum.nan then JSNum.nan else if jsLt a b then b else a

/-- The function `Math.min` on two arguments. -/
def mathMin (a b : JSNum) : JSNum :=
  if a = JSNum.nan ∨ b = JSNum.nan then JSNum.nan else if jsLt b a then b else a

/-- The function `Math.abs`. -/
def mathAbs : JSNum → JSNum
  | JSNum.fin a => JSNum.fin |a|
  | JSNum.posInf => JSNum.posInf
  | JSNum.negInf => JSNum.posInf
  | JSNum.nan => JSNum.nan

/-! ## `Number.prototype.toFixed`, `slice(-1)`, `parseInt` -/

/-- Exceptions raised by the built-ins used here. -/
inductive JSError
  | rangeError
  deriving DecidableEq

deriving instance DecidableEq for Except

/-- The string returned by `toFixed`, kept as the datum that determines it. -/
inductive NumStr
  /-- Optional minus sign, then the decimal digits of `n` with a point before the last `f`. -/
  | dec (neg : Bool) (n f : ℕ)
  /-- The string `Number::toString` gives a finite number of magnitude at least `10^21`. -/
  | big (x : ℚ)
  /-- One of `"NaN"`, `"Infinity"`, `"-Infinity"`. -/
  | nonFinite (x : JSNum)
  deriving DecidableEq

/-- Steps 6 to 12 of `Number.prototype.toFixed` for `f` fraction digits: a non-finite number
prints as itself, a magnitude of at least `10^21` goes through `Number::toString`, and
otherwise the integer `n` nearest to `|x| * 10^f` (the larger one on a tie) is printed. -/
def toFixedDigits (x : JSNum) (f : ℕ) : NumStr :=
  match x with
  | JSNum.fin q =>
      if (10 : ℚ) ^ 21 ≤ |q| then NumStr.big q
      else NumStr.dec (decide (q < 0)) ⌊|q| * 10 ^ f + 1 / 2⌋₊ f
  | other => NumStr.nonFinite other

/-- The method `x.toFixed(fractionDigits)`: a `RangeError` unless `0 ≤ fractionDigits ≤ 100`. -/
def toFixed (x : JSNum) (fractionDigits : ℤ) : Except JSError NumStr :=
  if fractionDigits < 0 ∨ 100 < fractionDigits then Except.error JSError.rangeError
  else Except.ok (toFixedDigits x fractionDigits.toNat)

/-- Characters of the decimal string of `dec neg n f`: the digits of `n`, left-padded with
zeros to `f + 1` characters when `f ≠ 0`, a point before the last `f` of them, and the sign. -/
def decChars (neg : Bool) (n f : ℕ) : List Char :=
  let m := Nat.toDigits 10 n
  let m := if f ≠ 0 ∧ m.length ≤ f then List.replicate (f + 1 - m.length) '0' ++ m else m
  let body := if f ≠ 0 then m.take (m.length - f) ++ '.' :: m.drop (m.length - f) else m
  (if neg then ['-'] else []) ++ body

/-- The `k`-digit candidate of `Number::toString` for `x` with `n0` integer digits: a digit
string `s` and a decimal exponent `n` with `fl (s * 10^(n - k)) = x`, the nearer of the two
neighbours of `x` (the even one on a tie), if either rounds to `x`. -/
def shortestAt (x : ℚ) (n0 k : ℕ) : Option (ℕ × ℕ) :=
  let u : ℚ := 10 ^ (n0 - k)
  let lo := ⌊x / u⌋₊
  let hi := lo + 1
  let okLo : Bool := decide (fl (lo * u) = JSNum.fin x)
  let okHi : Bool := decide (fl (hi * u) = JSNum.fin x)
  let norm : ℕ → ℕ × ℕ := fun s => if s = 10 ^ k then (10 ^ (k - 1), n0 + 1) else (s, n0)
  if okLo && okHi then
    (if x - lo * u < hi * u - x then some (norm lo)
     else if hi * u - x < x - lo * u then some (norm hi)
     else if lo % 2 = 0 then some (norm lo) else some (norm hi))
  else if okLo then some (norm lo)
  else if okHi then some (norm hi)
  else none

/-- The function `Number::toString` on a finite number `x ≥ 10^21`: the shortest digit string
`s` that reads back as `x`, in exponent form `d.ddd` then `e+` then `n - 1`.  Seventeen digits
always suffice for a binary64 value; the seventeen-digit floor is the fallback for a rational
that is not one. -/
def numberToString (x : ℚ) : List Char :=
  let n0 := (Nat.toDigits 10 ⌊x⌋₊).length
  let sn : ℕ × ℕ :=
    match (List.range 17).findSome? (fun i => shortestAt x n0 (i + 1)) with
    | some r => r
    | none => (⌊x / 10 ^ (n0 - 17)⌋₊, n0)
  let ds := Nat.toDigits 10 sn.1
  let mant := match ds with
    | [] => []
    | [d] => [d]
    | d :: rest => d :: '.' :: rest
  mant ++ ['e', '+'] ++ Nat.toDigits 10 (sn.2 - 1)

/-- Characters of a `toFixed` result. -/
def NumStr.chars : NumStr → List Char
  | NumStr.dec neg n f => decChars neg n f
  | NumStr.big x => (if x < 0 then ['-'] else []) ++ numberToString |x|
  | NumStr.nonFinite JSNum.posInf => "Infinity".toList
  | NumStr.nonFinite JSNum.negInf => "-Infinity".toList
  | NumStr.nonFinite _ => "NaN".toList

/-- The Number a `toFixed` result converts to when used as an operand (`100 - evenPct`):
the binary64 value nearest to the decimal it spells. -/
def NumStr.toNumber : NumStr → JSNum
  | NumStr.dec neg n f => fl ((if neg then -1 else 1) * (n : ℚ) / 10 ^ f)
  | NumStr.big x => JSNum.fin x
  | NumStr.nonFinite x => x

/-- The exact decimal value spelled by a `toFixed` result (`none` when it is not a decimal). -/
def NumStr.value : NumStr → Option ℚ
  | NumStr.dec neg n f => some ((if neg then -1 else 1) * (n : ℚ) / 10 ^ f)
  | _ => none

/-- The call `s.slice(-1)`: the last character of `s`, or the empty string. -/
def sliceLast (s : List Char) : List Char :=
  match s.getLast? with
  | some c => [c]
  | none => []

/-- The call `parseInt(s)` on a string of at most one character, which is all that
`slice(-1)` returns: a decimal digit gives its value, anything else gives NaN (`none`). -/
def parseInt (s : List Char) : Option (Fin 10) :=
  match s with
  | [c] => if c.isDigit then some ⟨(c.toNat - 48) % 10, Nat.mod_lt _ (by decide)⟩ else none
  | _ => none

/-- The operand `tick.pip_size || 5`: an absent or zero pip size is falsy and gives `5`. -/
def pipSizeOr (pip_size : Option ℤ) (dflt : ℤ) : ℤ :=
  match pip_size with
  | none => dflt
  | some p => if p = 0 then dflt else p

/-- The digit `handleTick` derives:
`parseInt(price.toFixed(tick.pip_size || 5).slice(-1))`. -/
def extractDigit (price : ℚ) (pip_size : Option ℤ) : Except JSError (Option (Fin 10)) := do
  let str ← toFixed (JSNum.fin price) (pipSizeOr pip_size 5)
  pure (parseInt (sliceLast str.chars))

/-! ## Configuration, market table and state -/

/-- The record `CONFIG`. -/
structure Config where
  app_id : ℕ
  ws_url : String
  max_ticks : ℕ
  chart_points : ℕ

/-- The constant `CONFIG` (lines 2 to 7). -/
def CONFIG : Config :=
  { app_id := 1089, ws_url := "wss://ws.binaryws.com/websockets/v3", max_ticks := 100,
    chart_points := 50 }

/-- One entry of a market category: display name and API symbol. -/
structure Asset where
  name : String
  symbol : String
  deriving DecidableEq

/-- The lookup `MARKET_ASSETS[category]` (lines 10 to 39) for a key that is one of the four
categories or names no property at all; `none` is `undefined`.  A key inherited from
`Object.prototype` (`constructor`, `toString`, ...) is not modelled: there
`populateAssetSelect` throws a `TypeError` at `assets.forEach` and leaves `State` as it was. -/
def MARKET_ASSETS (category : String) : Option (List Asset) :=
  if category = "volatility" then
    some [⟨"Volatility 10 (1s)", "1HZ10V"⟩, ⟨"Volatility 100 (1s)", "1HZ100V"⟩,
      ⟨"Volatility 10", "R_10"⟩, ⟨"Volatility 25", "R_25"⟩, ⟨"Volatility 50", "R_50"⟩,
      ⟨"Volatility 75", "R_75"⟩, ⟨"Volatility 100", "R_100"⟩]
  else if category = "boom_crash" then
    some [⟨"Boom 300", "BOOM300"⟩, ⟨"Boom 500", "BOOM500"⟩, ⟨"Boom 1000", "BOOM1000"⟩,
      ⟨"Crash 300", "CRASH300"⟩, ⟨"Crash 500", "CRASH500"⟩, ⟨"Crash 1000", "CRASH1000"⟩]
  else if category = "step" then
    some [⟨"Step Index", "STEP"⟩]
  else if category = "jump" then
    some [⟨"Jump 10", "JUMP_10"⟩, ⟨"Jump 25", "JUMP_25"⟩, ⟨"Jump 50", "JUMP_50"⟩,
      ⟨"Jump 75", "JUMP_75"⟩, ⟨"Jump 100", "JUMP_100"⟩]
  else none

/-- A tick event of the feed: `quote`, `epoch` and the optional `pip_size`. -/
structure Tick where
  quote : ℚ
  epoch : ℤ
  pip_size : Option ℤ
  deriving DecidableEq

/-- An element of `State.ticks`: the object `price, digit, epoch` that `handleTick` pushes.
The digit is the result of `parseInt` on one character: `0..9`, or NaN (`none`). -/
structure Entry where
  price : ℚ
  digit : Option (Fin 10)
  epoch : ℤ
  deriving DecidableEq

/-- The value of `State.lastDigit`: `null` (`none`) until the first tick, then a digit. -/
abbrev LastDigit := Option (Option (Fin 10))

/-- The markup held by `DOM.display.statsContent`, kept as the template that was written
and the values filled into its holes. -/
inductive StatsHtml
  /-- The markup the page is served with. -/
  | pageMarkup
  /-- The placeholder `Collecting data...` written by `renderStatsUI`. -/
  | collecting
  /-- The empty string: `html` when no branch of `updateStats` matched the strategy. -/
  | blank
  /-- The Even/Odd rows with `evenPct` and `oddPct`. -/
  | evenOdd (evenPct oddPct : NumStr)
  /-- The Match/Differ rows with `target`, `matchPct` and `differPct`. -/
  | matchesDiffers (target : LastDigit) (matchPct differPct : NumStr)
  /-- The Over/Under rows with `overPct`, the bar width `100 - overPct` and its `toFixed(1)`. -/
  | overUnder (overPct : NumStr) (underWidth : JSNum) (underPct : NumStr)
  deriving DecidableEq

/-- One box of the digit grid: the digit, its percentage text and its `hot`/`cold` class. -/
structure DigitBox where
  digit : ℕ
  pct : NumStr
  hot : Bool
  cold : Bool
  deriving DecidableEq

/-- The object `State` (lines 42 to 50) with the two parts of the page the analysers write.
The socket, the chart and the login flag play no part in the engine and are left out. -/
structure State where
  ticks : List Entry
  currentSymbol : String
  currentStrategy : String
  lastDigit : LastDigit
  statsContent : StatsHtml
  digitGrid : List DigitBox
  deriving DecidableEq

/-- The state when the script is loaded. -/
def State.start : State :=
  { ticks := [], currentSymbol := "1HZ10V", currentStrategy := "even_odd", lastDigit := none,
    statsContent := StatsHtml.pageMarkup, digitGrid := [] }

/-! ## Analysis engine -/

/-- The test `t.digit % 2 === 0`. -/
def isEven (t : Entry) : Bool :=
  match t.digit with
  | some d => decide (d.val % 2 = 0)
  | none => false

/-- The test `t.digit === target` with `target = State.lastDigit`. -/
def isTarget (target : LastDigit) (t : Entry) : Bool :=
  match t.digit, target with
  | some d, some (some g) => decide (d = g)
  | _, _ => false

/-- The test `t.digit > 4`. -/
def isOver (t : Entry) : Bool :=
  match t.digit with
  | some d => decide (4 < d.val)
  | none => false

/-- The function `updateStats` (lines 266 to 338). -/
def updateStats (s : State) : Except JSError State :=
  if s.ticks.length = 0 then pure s
  else do
    let total := ofNat s.ticks.length
    let html ←
      if s.currentStrategy = "even_odd" then do
        let evens := ofNat (s.ticks.filter isEven).length
        let evenPct ← toFixed (jsMul (jsDiv evens total) 100) 1
        let oddPct ← toFixed (jsSub 100 evenPct.toNumber) 1
        pure (StatsHtml.evenOdd evenPct oddPct)
      else if s.currentStrategy = "matches_differs" then do
        let target := s.lastDigit
        let matches_ := ofNat (s.ticks.filter (isTarget target)).length
        let matchPct ← toFixed (jsMul (jsDiv matches_ total) 100) 1
        let differPct ← toFixed (jsSub 100 matchPct.toNumber) 1
        pure (StatsHtml.matchesDiffers target matchPct differPct)
      else if s.currentStrategy = "over_under" then do
        let over := ofNat (s.ticks.filter isOver).length
        let overPct ← toFixed (jsMul (jsDiv over total) 100) 1
        let underPct ← toFixed (jsSub 100 overPct.toNumber) 1
        pure (StatsHtml.overUnder overPct (jsSub 100 overPct.toNumber) underPct)
      else pure StatsHtml.blank
    pure { s with statsContent := html }

/-- The array `counts` after `Array(10).fill(0)` and
`State.ticks.forEach(t => counts[t.digit]++)`; a NaN digit names no element of the array. -/
def digitCounts (ticks : List Entry) : List ℕ :=
  ticks.foldl
    (fun counts t =>
      match t.digit with
      | some d => counts.set d.val (counts.getD d.val 0 + 1)
      | none => counts)
    (List.replicate 10 0)

/-- The call `Math.max(...counts)`. -/
def spreadMax (counts : List ℕ) : JSNum :=
  counts.foldl (fun acc c => mathMax acc (ofNat c)) JSNum.negInf

/-- The call `Math.min(...counts)`. -/
def spreadMin (counts : List ℕ) : JSNum :=
  counts.foldl (fun acc c => mathMin acc (ofNat c)) JSNum.posInf

/-- The call `counts.indexOf(v)`: the first index holding `v`, or `-1`. -/
def indexOf (counts : List ℕ) (v : JSNum) : ℤ :=
  let i := counts.findIdx (fun c => decide (ofNat c = v))
  if i < counts.length then (i : ℤ) else -1

/-- One iteration of `counts.forEach((count, digit) => ...)` in `updateDigitHeatmap`. -/
def digitBox (total maxFreq : JSNum) (digit count : ℕ) : Except JSError DigitBox := do
  let pct ← toFixed (jsMul (jsDiv (ofNat count) total) 100) 0
  let hot := decide (ofNat count = maxFreq)
  pure { digit := digit, pct := pct, hot := hot, cold := !hot && decide (count = 0) }

/-- The boxes `updateDigitHeatmap` appends for `counts` from index `digit` on. -/
def digitBoxes (total maxFreq : JSNum) : ℕ → List ℕ → Except JSError (List DigitBox)
  | _, [] => pure []
  | digit, count :: rest => do
      let box ← digitBox total maxFreq digit count
      let boxes ← digitBoxes total maxFreq (digit + 1) rest
      pure (box :: boxes)

/-- The function `updateDigitHeatmap` (lines 340 to 362). -/
def updateDigitHeatmap (s : State) : Except JSError State := do
  let counts := digitCounts s.ticks
  let total := ofNat s.ticks.length
  let maxFreq := spreadMax counts
  let boxes ← digitBoxes total maxFreq 0 counts
  pure { s with digitGrid := boxes }

/-- The function `handleTick` (lines 234 to 263).  The writes to the price, digit and clock
elements and the chart update do not feed back into the engine and are left out. -/
def handleTick (s : State) (tick : Tick) : Except JSError State := do
  let price := tick.quote
  let epoch := tick.epoch
  let digit ← extractDigit price tick.pip_size
  let pushed := s.ticks ++ [{ price := price, digit := digit, epoch := epoch }]
  let ticks := if pushed.length > CONFIG.max_ticks then pushed.tail else pushed
  let s1 := { s with lastDigit := some digit, ticks := ticks }
  let s2 ← updateStats s1
  updateDigitHeatmap s2

/-- The object `handleTick` pushes for a tick; the digit is the extracted one when the
extraction does not throw (and NaN otherwise, a case in which nothing is pushed). -/
def entryOf (tick : Tick) : Entry :=
  { price := tick.quote,
    digit := match extractDigit tick.quote tick.pip_size with
      | Except.ok d => d
      | Except.error _ => none,
    epoch := tick.epoch }

/-- The pip size of the tick is one `toFixed` accepts: absent, or an integer in `0..100`. -/
def Tick.pipSizeInRange (tick : Tick) : Prop :=
  0 ≤ pipSizeOr tick.pip_size 5 ∧ pipSizeOr tick.pip_size 5 ≤ 100

instance (tick : Tick) : Decidable tick.pipSizeInRange :=
  inferInstanceAs (Decidable (0 ≤ pipSizeOr tick.pip_size 5 ∧ pipSizeOr tick.pip_size 5 ≤ 100))

/-- The listener `State.ws.onmessage` on a message that carries a tick (lines 213 to 216).
An exception thrown by `handleTick` ends the call; the one step that throws, `toFixed`,
comes before every assignment, so `State` is as it was, and the page goes on with the next
message. -/
def onTickMessage (s : State) (tick : Tick) : State :=
  match handleTick s tick with
  | Except.ok s1 => s1
  | Except.error _ => s

/-- The result of `generatePrediction`: the text of `finalPrediction` and the confidence. -/
structure Prediction where
  result : String
  confidence : JSNum
  deriving DecidableEq

/-- The statement `confidence = Math.min(Math.max(confidence, 10), 95)`. -/
def clampConfidence (confidence : JSNum) : JSNum := mathMin (mathMax confidence 10) 95

/-- The body of the timer callback of `generatePrediction` (lines 374 to 417). -/
def generatePrediction (s : State) : Prediction :=
  let total := ofNat s.ticks.length
  let raw : Prediction :=
    if s.currentStrategy = "even_odd" then
      let evens := ofNat (s.ticks.filter isEven).length
      let _deviation := mathAbs (jsSub evens (jsDiv total 2))
      if jsGt evens (jsMul total (jsLit (55 / 100))) then
        { result := "ODD", confidence := jsAdd 50 (jsSub evens (jsMul total (jsLit (5 / 10)))) }
      else if jsLt evens (jsMul total (jsLit (45 / 100))) then
        { result := "EVEN", confidence := jsAdd 50 (jsSub (jsMul total (jsLit (5 / 10))) evens) }
      else
        { result := "HOLD", confidence := 30 }
    else if s.currentStrategy = "matches_differs" then
      let counts := digitCounts s.ticks
      let minFreq := spreadMin counts
      let rarestDigit := indexOf counts minFreq
      { result := "MATCH " ++ toString rarestDigit,
        confidence := jsSub 100 (jsMul (jsDiv minFreq total) 100) }
    else
      let over := ofNat (s.ticks.filter isOver).length
      if jsGt over (jsMul total (jsLit (6 / 10))) then
        { result := "UNDER", confidence := 65 }
      else
        { result := "OVER", confidence := 65 }
  { raw with confidence := clampConfidence raw.confidence }

/-! ## Handlers -/

/-- The function `renderStatsUI` (lines 481 to 484). -/
def renderStatsUI (s : State) : State :=
  { s with statsContent := StatsHtml.collecting }

/-- The function `populateAssetSelect` (lines 171 to 186), as far as `State` goes: the
options of the asset selector and the market title are page elements.  Every category of
`MARKET_ASSETS` has a first asset. -/
def populateAssetSelect (s : State) (category : String) : State :=
  match MARKET_ASSETS category with
  | some (first :: _) => { s with currentSymbol := first.symbol }
  | _ => s

/-- The category-change listener (lines 142 to 144). -/
def onCategoryChange (s : State) (value : String) : State :=
  populateAssetSelect s value

/-- The asset-change listener (lines 147 to 152); the title and the socket are left out. -/
def onAssetChange (s : State) (value : String) : State :=
  { s with currentSymbol := value, ticks := [] }

/-- The strategy-change listener (lines 155 to 159). -/
def onStrategyChange (s : State) (value : String) : Except JSError State :=
  updateStats (renderStatsUI { s with currentStrategy := value })


/-! ## Specification-side definitions -/

/-- The digit as the specification computes it: `round(price * 10^p) mod 10`, a tie
rounding up. -/
def specDigit (price : ℚ) (p : ℕ) : ℕ := ⌊price * 10 ^ p + 1 / 2⌋₊ % 10

/-- The interval clamp `min (max c 10) 95` on exact numbers. -/
def clampQ (c : ℚ) : ℚ := min (max c 10) 95

/-- The `even_odd` branch of `generatePrediction`, clamp included, on the two counts it
reads: the number of even digits and the window length. -/
def evenOddCall (evens total : ℕ) : Prediction :=
  let raw : Prediction :=
    if jsGt (ofNat evens) (jsMul (ofNat total) (jsLit (55 / 100))) then
      { result := "ODD",
        confidence := jsAdd 50 (jsSub (ofNat evens) (jsMul (ofNat total) (jsLit (5 / 10)))) }
    else if jsLt (ofNat evens) (jsMul (ofNat total) (jsLit (45 / 100))) then
      { result := "EVEN",
        confidence := jsAdd 50 (jsSub (jsMul (ofNat total) (jsLit (5 / 10))) (ofNat evens)) }
    else
      { result := "HOLD", confidence := 30 }
  { raw with confidence := clampConfidence raw.confidence }

/-- The rule of the `even_odd` strategy as the specification words it, in exact arithmetic:
`ODD` with `clamp (50 + (e - n/2))` when `e > 0.55 n`, else `EVEN` with
`clamp (50 + (n/2 - e))` when `e < 0.45 n`, else `HOLD` with `30`. -/
def evenOddSpec (e n : ℕ) : Prediction :=
  if (55 : ℚ) / 100 * n < e then
    { result := "ODD", confidence := JSNum.fin (clampQ (50 + ((e : ℚ) - n / 2))) }
  else if (e : ℚ) < 45 / 100 * n then
    { result := "EVEN", confidence := JSNum.fin (clampQ (50 + ((n : ℚ) / 2 - e))) }
  else
    { result := "HOLD", confidence := JSNum.fin 30 }

/-- The confidence of the `matches_differs` branch before the clamp, on the two counts it
reads: the least of the ten digit counts and the window length. -/
def matchConfidence (minFreq total : ℕ) : JSNum :=
  jsSub 100 (jsMul (jsDiv (ofNat minFreq) (ofNat total)) 100)

/-- A window with the given digits, every tick at price `1` and epoch `0`. -/
def windowOf (digits : List (Fin 10)) : List Entry :=
  digits.map (fun d => { price := 1, digit := some d, epoch := 0 })

/-- The state with the given strategy and window, the rest as when the script is loaded. -/
def stateOf (strategy : String) (digits : List (Fin 10)) : State :=
  { State.start with currentStrategy := strategy, ticks := windowOf digits }

/-- The number `v` is finite and has the same integers below it as `x` (equal floors). -/
def sameFloor (v : JSNum) (x : ℚ) : Bool :=
  match v with
  | JSNum.fin r => decide (⌊r⌋ = ⌊x⌋)
  | _ => false

/-- The number `v` is finite and has the same integers above it as `x` (equal ceilings). -/
def sameCeil (v : JSNum) (x : ℚ) : Bool :=
  match v with
  | JSNum.fin r => decide (⌈r⌉ = ⌈x⌉)
  | _ => false

/-! ## Digit extraction -/

theorem toDigitsCore_append (b : ℕ) : ∀ (fuel n : ℕ) (ds : List Char),
    Nat.toDigitsCore b fuel n ds = Nat.toDigitsCore b fuel n [] ++ ds := by
  intro fuel
  induction fuel with
  | zero => intro n ds; simp [Nat.toDigitsCore]
  | succ k ih =>
    intro n ds
    simp only [Nat.toDigitsCore]
    split
    · simp
    · rw [ih (n / b) (Nat.digitChar (n % b) :: ds), ih (n / b) [Nat.digitChar (n % b)]]
      simp

theorem toDigits_getLast (n : ℕ) :
    (Nat.toDigits 10 n).getLast? = some (Nat.digitChar (n % 10)) := by
  unfold Nat.toDigits
  simp only [Nat.toDigitsCore]
  split
  · simp
  · rw [toDigitsCore_append]
    simp

theorem toDigits_ne_nil (n : ℕ) : Nat.toDigits 10 n ≠ [] := by
  intro h
  have := toDigits_getLast n
  rw [h] at this
  simp at this

theorem padded_getLast (m : List Char) (c : Char) (f : ℕ) (hm : m.getLast? = some c) :
    (if f ≠ 0 ∧ m.length ≤ f then List.replicate (f + 1 - m.length) '0' ++ m else m).getLast?
      = some c := by
  have hne : m ≠ [] := by rintro rfl; simp at hm
  split
  · rw [List.getLast?_append_of_ne_nil _ hne]; exact hm
  · exact hm

theorem padded_length (m : List Char) (f : ℕ) (hm : m ≠ []) (hf : f ≠ 0) :
    f < (if f ≠ 0 ∧ m.length ≤ f then List.replicate (f + 1 - m.length) '0' ++ m
      else m).length := by
  have : 0 < m.length := List.length_pos.mpr hm
  split
  · simp; omega
  · rename_i h; simp only [not_and, not_le] at h; exact h hf

theorem pointed_getLast (m : List Char) (c : Char) (f : ℕ) (hm : m.getLast? = some c)
    (hlen : f ≠ 0 → f < m.length) :
    (if f ≠ 0 then m.take (m.length - f) ++ '.' :: m.drop (m.length - f) else m).getLast?
      = some c := by
  split
  · rename_i hf
    have h1 := hlen hf
    rw [List.getLast?_append_of_ne_nil _ (by simp)]
    have hd : m.drop (m.length - f) ≠ [] := by
      intro h
      have := congrArg List.length h
      simp at this
      omega
    rw [show '.' :: m.drop (m.length - f) = ['.'] ++ m.drop (m.length - f) from rfl,
      List.getLast?_append_of_ne_nil _ hd]
    rw [List.getLast?_drop]
    simp [hm]
    omega
  · exact hm

/-- The last character of a printed decimal is the units digit of its digit string. -/
theorem decChars_getLast (neg : Bool) (n f : ℕ) :
    (decChars neg n f).getLast? = some (Nat.digitChar (n % 10)) := by
  unfold decChars
  have h1 := padded_getLast _ _ f (toDigits_getLast n)
  have h2 := pointed_getLast _ _ f h1 (padded_length _ f (toDigits_ne_nil n))
  have hne : ∀ l : List Char, l.getLast? = some (Nat.digitChar (n % 10)) → l ≠ [] := by
    rintro l h rfl; simp at h
  simp only []
  rw [List.getLast?_append_of_ne_nil _ (hne _ h2)]
  exact h2

theorem parseInt_digitChar : ∀ k : Fin 10, parseInt [Nat.digitChar k.val] = some k := by
  decide

/-- For a price in `[0, 10^21)` and `f ≤ 100` fraction digits, the digit read off the
`toFixed` string is `round(price * 10^f) mod 10`. -/
theorem extractDigit_of_range (price : ℚ) (pip : Option ℤ) (f : ℕ)
    (h0 : 0 ≤ price) (h21 : price < 10 ^ 21) (hf : pipSizeOr pip 5 = (f : ℤ)) (hf100 : f ≤ 100) :
    ∃ d : Fin 10, extractDigit price pip = Except.ok (some d) ∧ d.val = specDigit price f ∧
      toFixed (JSNum.fin price) (pipSizeOr pip 5)
        = Except.ok (NumStr.dec false ⌊price * 10 ^ f + 1 / 2⌋₊ f) ∧
      (NumStr.dec false ⌊price * 10 ^ f + 1 / 2⌋₊ f).chars.getLast?
        = some (Nat.digitChar d.val) := by
  have hlt : specDigit price f < 10 := Nat.mod_lt _ (by decide)
  have habs : |price| = price := abs_of_nonneg h0
  have hneg : ¬ price < 0 := not_lt.mpr h0
  have hfix : toFixed (JSNum.fin price) (pipSizeOr pip 5)
      = Except.ok (NumStr.dec false ⌊price * 10 ^ f + 1 / 2⌋₊ f) := by
    have hr : ¬ ((f : ℤ) < 0 ∨ 100 < (f : ℤ)) := by omega
    simp only [toFixed, hf, hr, if_false, toFixedDigits, habs, not_le.mpr h21, hneg,
      Int.toNat_ofNat, decide_False]
  have hlast := decChars_getLast false ⌊price * 10 ^ f + 1 / 2⌋₊ f
  refine ⟨⟨specDigit price f, hlt⟩, ?_, rfl, hfix, ?_⟩
  · unfold extractDigit
    rw [hfix]
    have hch : (NumStr.dec false ⌊price * 10 ^ f + 1 / 2⌋₊ f).chars
        = decChars false ⌊price * 10 ^ f + 1 / 2⌋₊ f := rfl
    have hsl : sliceLast (decChars false ⌊price * 10 ^ f + 1 / 2⌋₊ f)
        = [Nat.digitChar (specDigit price f)] := by
      simp only [sliceLast, hlast]; rfl
    show Except.ok (parseInt (sliceLast (NumStr.chars _))) = _
    rw [hch, hsl]
    exact congrArg (fun o => Except.ok o) (parseInt_digitChar ⟨specDigit price f, hlt⟩)
  · exact hlast

/-! ## Digit histogram -/

theorem sum_set_getD : ∀ (l : List ℕ) (i a : ℕ), i < l.length →
    (l.set i a).sum + l.getD i 0 = l.sum + a := by
  intro l
  induction l with
  | nil => intro i a h; simp at h
  | cons x xs ih =>
    intro i a h
    cases i with
    | zero => simp; omega
    | succ j =>
      have := ih j a (by simpa using h)
      simp only [List.set_cons_succ, List.sum_cons, List.getD_cons_succ]
      omega

/-- One step of the `forEach` loop that fills `counts`. -/
theorem countStep_spec (c : List ℕ) (hc : c.length = 10) (d : Fin 10) :
    (c.set d.val (c.getD d.val 0 + 1)).length = 10 ∧
    (∀ k : Fin 10, (c.set d.val (c.getD d.val 0 + 1)).getD k.val 0
        = c.getD k.val 0 + if d = k then 1 else 0) ∧
    (c.set d.val (c.getD d.val 0 + 1)).sum = c.sum + 1 := by
  refine ⟨by simp [hc], ?_, ?_⟩
  · intro k
    by_cases h : d = k
    · subst h
      simp [List.getD_eq_getElem?_getD, List.getElem?_set, hc]
    · have h' : d.val ≠ k.val := fun e => h (Fin.ext e)
      simp [List.getD_eq_getElem?_getD, List.getElem?_set, h, h']
  · have := sum_set_getD c d.val (c.getD d.val 0 + 1) (by rw [hc]; exact d.isLt)
    omega

/-- The loop that fills `counts`, started from any ten-entry array. -/
theorem countLoop_spec : ∀ (w : List Entry) (c : List ℕ), c.length = 10 →
    (w.foldl (fun counts t => match t.digit with
        | some d => counts.set d.val (counts.getD d.val 0 + 1)
        | none => counts) c).length = 10 ∧
    (∀ k : Fin 10, (w.foldl (fun counts t => match t.digit with
        | some d => counts.set d.val (counts.getD d.val 0 + 1)
        | none => counts) c).getD k.val 0
        = c.getD k.val 0 + w.countP (fun t => decide (t.digit = some k))) ∧
    (w.foldl (fun counts t => match t.digit with
        | some d => counts.set d.val (counts.getD d.val 0 + 1)
        | none => counts) c).sum = c.sum + w.countP (fun t => t.digit.isSome) := by
  intro w
  induction w with
  | nil => intro c hc; simp [hc]
  | cons t ts ih =>
    intro c hc
    simp only [List.foldl_cons]
    cases hd : t.digit with
    | none =>
      obtain ⟨h1, h2, h3⟩ := ih c hc
      refine ⟨h1, ?_, ?_⟩
      · intro k; rw [h2 k]; simp [List.countP_cons, hd]
      · rw [h3]; simp [List.countP_cons, hd]
    | some d =>
      obtain ⟨s1, s2, s3⟩ := countStep_spec c hc d
      obtain ⟨h1, h2, h3⟩ := ih _ s1
      refine ⟨h1, ?_, ?_⟩
      · intro k
        rw [h2 k, s2 k]
        by_cases h : d = k
        · simp [List.countP_cons, hd, h]; omega
        · simp [List.countP_cons, hd, h]
      · rw [h3, s3]; simp [List.countP_cons, hd]; omega

theorem digitCounts_length (w : List Entry) : (digitCounts w).length = 10 :=
  (countLoop_spec w _ (by simp)).1

theorem digitCounts_getD (w : List Entry) (k : Fin 10) :
    (digitCounts w).getD k.val 0 = w.countP (fun t => decide (t.digit = some k)) := by
  have := (countLoop_spec w (List.replicate 10 0) (by simp)).2.1 k
  have h0 : (List.replicate 10 (0 : ℕ)).getD k.val 0 = 0 := by
    rw [List.getD_eq_getElem?_getD, List.getElem?_replicate]
    split <;> rfl
  unfold digitCounts
  rw [this, h0, zero_add]

theorem digitCounts_sum (w : List Entry) :
    (digitCounts w).sum = w.countP (fun t => t.digit.isSome) := by
  have := (countLoop_spec w (List.replicate 10 0) (by simp)).2.2
  unfold digitCounts
  rw [this]
  simp


/-! ## The tick window -/

theorem toFixed_of_le (x : JSNum) (k : ℕ) (hk : k ≤ 100) :
    toFixed x (k : ℤ) = Except.ok (toFixedDigits x k) := by
  have hr : ¬ ((k : ℤ) < 0 ∨ 100 < (k : ℤ)) := by omega
  simp only [toFixed, hr, if_false, Int.toNat_ofNat]

theorem toFixed_one (x : JSNum) : toFixed x 1 = Except.ok (toFixedDigits x 1) :=
  toFixed_of_le x 1 (by decide)

theorem toFixed_zero (x : JSNum) : toFixed x 0 = Except.ok (toFixedDigits x 0) :=
  toFixed_of_le x 0 (by decide)

/-- The function `updateStats` never throws and writes nothing but the statistics panel. -/
theorem updateStats_ok (s : State) :
    ∃ html, updateStats s = Except.ok { s with statsContent := html } := by
  unfold updateStats
  by_cases h0 : s.ticks.length = 0
  · exact ⟨s.statsContent, by simp [h0]; rfl⟩
  · simp only [h0, if_false, toFixed_one]
    split_ifs <;> exact ⟨_, rfl⟩

theorem digitBoxes_ok (total maxFreq : JSNum) : ∀ (counts : List ℕ) (digit : ℕ),
    ∃ boxes, digitBoxes total maxFreq digit counts = Except.ok boxes := by
  intro counts
  induction counts with
  | nil => intro digit; exact ⟨[], rfl⟩
  | cons c cs ih =>
    intro digit
    obtain ⟨bs, hbs⟩ := ih (digit + 1)
    simp only [digitBoxes, digitBox, toFixed_zero, hbs]
    exact ⟨_, rfl⟩

/-- The function `updateDigitHeatmap` never throws and writes nothing but the digit grid. -/
theorem updateDigitHeatmap_ok (s : State) :
    ∃ boxes, updateDigitHeatmap s = Except.ok { s with digitGrid := boxes } := by
  unfold updateDigitHeatmap
  obtain ⟨bs, hbs⟩ := digitBoxes_ok (ofNat s.ticks.length) (spreadMax (digitCounts s.ticks))
    (digitCounts s.ticks) 0
  simp only [hbs]
  exact ⟨bs, rfl⟩

/-- A tick whose pip size `toFixed` accepts: absent, or an integer from `0` to `100`. -/
theorem extractDigit_ok (price : ℚ) (pip : Option ℤ)
    (h : 0 ≤ pipSizeOr pip 5 ∧ pipSizeOr pip 5 ≤ 100) :
    ∃ d, extractDigit price pip = Except.ok d := by
  unfold extractDigit
  have hr : ¬ (pipSizeOr pip 5 < 0 ∨ 100 < pipSizeOr pip 5) := by omega
  simp only [toFixed, hr, if_false]
  exact ⟨_, rfl⟩

theorem updateStats_fields (s : State) :
    ∃ s1, updateStats s = Except.ok s1 ∧ s1.ticks = s.ticks ∧
      s1.currentSymbol = s.currentSymbol ∧ s1.currentStrategy = s.currentStrategy ∧
      s1.lastDigit = s.lastDigit := by
  obtain ⟨html, h⟩ := updateStats_ok s
  exact ⟨_, h, rfl, rfl, rfl, rfl⟩

theorem updateDigitHeatmap_fields (s : State) :
    ∃ s1, updateDigitHeatmap s = Except.ok s1 ∧ s1.ticks = s.ticks ∧
      s1.currentSymbol = s.currentSymbol ∧ s1.currentStrategy = s.currentStrategy ∧
      s1.lastDigit = s.lastDigit ∧ s1.statsContent = s.statsContent := by
  obtain ⟨boxes, h⟩ := updateDigitHeatmap_ok s
  exact ⟨_, h, rfl, rfl, rfl, rfl, rfl⟩

/-- One accepted tick: `handleTick` returns, having pushed the entry of the tick and evicted
the oldest entry when the push exceeded `max_ticks`. -/
theorem handleTick_ticks (s : State) (tick : Tick) (h : tick.pipSizeInRange) :
    ∃ s1, handleTick s tick = Except.ok s1 ∧
      s1.ticks = (if (s.ticks ++ [entryOf tick]).length > CONFIG.max_ticks
        then (s.ticks ++ [entryOf tick]).tail else s.ticks ++ [entryOf tick]) ∧
      s1.currentSymbol = s.currentSymbol ∧ s1.currentStrategy = s.currentStrategy := by
  obtain ⟨d, hd⟩ := extractDigit_ok tick.quote tick.pip_size h
  have he : entryOf tick = { price := tick.quote, digit := d, epoch := tick.epoch } := by
    simp only [entryOf, hd]
  obtain ⟨s2, hs, t2, c2, g2, _⟩ := updateStats_fields
    { s with lastDigit := some d,
             ticks := if (s.ticks ++ [entryOf tick]).length > CONFIG.max_ticks
               then (s.ticks ++ [entryOf tick]).tail else s.ticks ++ [entryOf tick] }
  obtain ⟨s3, hb, t3, c3, g3, _⟩ := updateDigitHeatmap_fields s2
  refine ⟨s3, ?_, by rw [t3, t2], by rw [c3, c2], by rw [g3, g2]⟩
  simp only [handleTick, hd, ← he, bind, Except.bind]
  rw [hs]
  exact hb


theorem drop_succ_append (a b : List Entry) (n : ℕ) (h : a ≠ []) :
    List.drop (n + 1) (a ++ b) = List.drop n (a.tail ++ b) := by
  cases a with
  | nil => exact absurd rfl h
  | cons x xs => simp

/-- The window after a run of accepted ticks, as a suffix of everything pushed. -/
theorem foldlM_handleTick_ticks : ∀ (ts : List Tick) (s : State),
    s.ticks.length ≤ CONFIG.max_ticks → (∀ t ∈ ts, t.pipSizeInRange) →
    ∃ s1, List.foldlM handleTick s ts = Except.ok s1 ∧
      s1.ticks = (s.ticks ++ ts.map entryOf).drop
        ((s.ticks ++ ts.map entryOf).length - CONFIG.max_ticks) := by
  intro ts
  induction ts with
  | nil =>
    intro s hw _
    refine ⟨s, rfl, ?_⟩
    have : s.ticks.length - CONFIG.max_ticks = 0 := Nat.sub_eq_zero_of_le hw
    simp [this]
  | cons t ts ih =>
    intro s hw hp
    obtain ⟨s1, h1, ht1, _, _⟩ := handleTick_ticks s t (hp t (List.mem_cons_self _ _))
    have hmax : CONFIG.max_ticks = 100 := rfl
    have hlen1 : s1.ticks.length ≤ CONFIG.max_ticks := by
      rw [ht1]
      split
      · simp; omega
      · rename_i h; exact not_lt.mp h
    obtain ⟨s2, h2, ht2⟩ := ih s1 hlen1 (fun x hx => hp x (List.mem_cons_of_mem _ hx))
    refine ⟨s2, ?_, ?_⟩
    · simp only [List.foldlM_cons, h1, bind, Except.bind]
      exact h2
    · rw [ht2]
      have happ : s.ticks ++ List.map entryOf (t :: ts)
          = (s.ticks ++ [entryOf t]) ++ List.map entryOf ts := by simp
      rw [happ]
      by_cases hfull : (s.ticks ++ [entryOf t]).length > CONFIG.max_ticks
      · rw [if_pos hfull] at ht1
        have hl : s.ticks.length = 100 := by
          simp only [List.length_append, List.length_singleton] at hfull
          omega
        have hl1 : s1.ticks.length = 100 := by rw [ht1]; simp [hl]
        have e1 : (s1.ticks ++ List.map entryOf ts).length - CONFIG.max_ticks = ts.length := by
          simp [hl1, hmax]
        have e2 : ((s.ticks ++ [entryOf t]) ++ List.map entryOf ts).length - CONFIG.max_ticks
            = ts.length + 1 := by
          simp [hl, hmax]
        have key : List.drop (ts.length + 1) ((s.ticks ++ [entryOf t]) ++ List.map entryOf ts)
            = List.drop ts.length ((s.ticks ++ [entryOf t]).tail ++ List.map entryOf ts) := by
          exact drop_succ_append _ _ _ (by simp)
        rw [e1, e2, key, ht1]
      · rw [if_neg hfull] at ht1
        rw [ht1]


/-- A run in which no call of `handleTick` throws is the run of the message listener. -/
theorem foldl_onTickMessage_of_ok : ∀ (ts : List Tick) (s s1 : State),
    List.foldlM handleTick s ts = Except.ok s1 → List.foldl onTickMessage s ts = s1 := by
  intro ts
  induction ts with
  | nil =>
    intro s s1 h
    exact Except.ok.inj h
  | cons t ts ih =>
    intro s s1 h
    simp only [List.foldlM_cons, bind, Except.bind] at h
    simp only [List.foldl_cons, onTickMessage]
    cases hstep : handleTick s t with
    | error e => rw [hstep] at h; exact absurd h (by simp)
    | ok s2 =>
      rw [hstep] at h
      exact ih s2 s1 h

/-- C1 (as amended). For every window `w` of at most `max_ticks` ticks and every finite
sequence `ts` of incoming ticks whose pip size, when present, is an integer from `0` to `100`,
applying `handleTick` to the ticks in arrival order (as the message listener does) returns a
state whose `ticks` are the last `min (|w| + |ts|) 100` elements of `w ++ ts` in their original
order; the length is that minimum, never exceeds `100`, and is exactly `100` once more than
`100` ticks were pushed. -/
theorem C1_window_keeps_latest (s : State) (ts : List Tick)
    (hw : s.ticks.length ≤ CONFIG.max_ticks) (hp : ∀ t ∈ ts, t.pipSizeInRange) :
    ∃ s1, List.foldlM handleTick s ts = Except.ok s1 ∧
      List.foldl onTickMessage s ts = s1 ∧
      s1.ticks = (s.ticks ++ ts.map entryOf).drop
        ((s.ticks ++ ts.map entryOf).length - min (s.ticks.length + ts.length) 100) ∧
      s1.ticks.length = min (s.ticks.length + ts.length) 100 ∧
      s1.ticks.length ≤ CONFIG.max_ticks ∧
      (100 < ts.length → s1.ticks.length = CONFIG.max_ticks) := by
  obtain ⟨s1, h1, h2⟩ := foldlM_handleTick_ticks ts s hw hp
  have hmax : CONFIG.max_ticks = 100 := rfl
  have hsub : (s.ticks ++ ts.map entryOf).length - min (s.ticks.length + ts.length) 100
      = (s.ticks ++ ts.map entryOf).length - CONFIG.max_ticks := by
    simp only [List.length_append, List.length_map, hmax]
    omega
  have hlen : s1.ticks.length = min (s.ticks.length + ts.length) 100 := by
    rw [h2]
    simp only [List.length_drop, List.length_append, List.length_map, hmax]
    omega
  refine ⟨s1, h1, foldl_onTickMessage_of_ok ts s s1 h1, by rw [hsub]; exact h2, hlen, ?_, ?_⟩
  · rw [hlen, hmax]; exact min_le_right _ _
  · intro h; rw [hlen, hmax]; omega

/-- C1 (as amended), at the empty window and 101 ticks of price `2` without a pip size. -/
theorem C1_window_keeps_latest_witness :
    ∃ s1, List.foldlM handleTick State.start (List.replicate 101 ⟨2, 0, none⟩) = Except.ok s1 ∧
      List.foldl onTickMessage State.start (List.replicate 101 ⟨2, 0, none⟩) = s1 ∧
      s1.ticks = (State.start.ticks ++ (List.replicate 101 (⟨2, 0, none⟩ : Tick)).map entryOf).drop
        ((State.start.ticks ++ (List.replicate 101 (⟨2, 0, none⟩ : Tick)).map entryOf).length
          - min (State.start.ticks.length + (List.replicate 101 (⟨2, 0, none⟩ : Tick)).length) 100) ∧
      s1.ticks.length = min (State.start.ticks.length
        + (List.replicate 101 (⟨2, 0, none⟩ : Tick)).length) 100 ∧
      s1.ticks.length ≤ CONFIG.max_ticks ∧
      (100 < (List.replicate 101 (⟨2, 0, none⟩ : Tick)).length
        → s1.ticks.length = CONFIG.max_ticks) :=
  C1_window_keeps_latest State.start (List.replicate 101 ⟨2, 0, none⟩) (by decide)
    (by intro t ht; rw [List.eq_of_mem_replicate ht]; decide)

/-- C1 as stated fails: on the empty window, a tick with pip size `1` followed by a tick with
pip size `101`.  For the second tick `toFixed` throws a `RangeError` before the push, so after
both messages the window holds the first entry only, one element and not the
`min (0 + 2) 100 = 2` last elements of `w ++ ts`. -/
theorem C1_counterexample :
    handleTick State.start ⟨2, 0, some 1⟩ ≠ Except.error JSError.rangeError ∧
    List.foldlM handleTick State.start [⟨2, 0, some 1⟩, ⟨2, 1, some 101⟩]
      = Except.error JSError.rangeError ∧
    (List.foldl onTickMessage State.start [⟨2, 0, some 1⟩, ⟨2, 1, some 101⟩]).ticks
      = [⟨2, some 0, 0⟩] ∧
    ((State.start.ticks ++ ([⟨2, 0, some 1⟩, ⟨2, 1, some 101⟩] : List Tick).map entryOf).drop
      ((State.start.ticks ++ ([⟨2, 0, some 1⟩, ⟨2, 1, some 101⟩] : List Tick).map entryOf).length
        - min (State.start.ticks.length
          + ([⟨2, 0, some 1⟩, ⟨2, 1, some 101⟩] : List Tick).length) 100)).length = 2 := by
  decide!


/-- C9. For every window whose digits are all in `0..9` (none is NaN), the array `counts` built
by `updateDigitHeatmap` has ten entries, `counts[d]` is the number of ticks of the window with
digit `d` for each `d` in `0..9`, and the ten counts add up to the window length. -/
theorem C9_digit_counts (w : List Entry) (hd : ∀ t ∈ w, t.digit ≠ none) :
    (digitCounts w).length = 10 ∧
    (∀ d : Fin 10, (digitCounts w)[d.val]? = some (w.countP (fun t => decide (t.digit = some d)))) ∧
    (digitCounts w).sum = w.length := by
  refine ⟨digitCounts_length w, ?_, ?_⟩
  · intro d
    have hlt : d.val < (digitCounts w).length := by rw [digitCounts_length]; exact d.isLt
    have := digitCounts_getD w d
    rw [List.getD_eq_getElem?_getD, List.getElem?_eq_getElem hlt] at this
    rw [List.getElem?_eq_getElem hlt]
    exact congrArg some this
  · rw [digitCounts_sum, List.countP_eq_length]
    intro t ht
    cases h : t.digit with
    | none => exact absurd h (hd t ht)
    | some d => rfl

/-- C9, at the window of digits `2, 9, 2`. -/
theorem C9_digit_counts_witness :
    (digitCounts [⟨1, some 2, 0⟩, ⟨1, some 9, 1⟩, ⟨1, some 2, 2⟩]).length = 10 ∧
    (∀ d : Fin 10, (digitCounts [⟨1, some 2, 0⟩, ⟨1, some 9, 1⟩, ⟨1, some 2, 2⟩])[d.val]?
      = some (List.countP (fun t => decide (t.digit = some d))
          ([⟨1, some 2, 0⟩, ⟨1, some 9, 1⟩, ⟨1, some 2, 2⟩] : List Entry))) ∧
    (digitCounts [⟨1, some 2, 0⟩, ⟨1, some 9, 1⟩, ⟨1, some 2, 2⟩]).sum
      = ([⟨1, some 2, 0⟩, ⟨1, some 9, 1⟩, ⟨1, some 2, 2⟩] : List Entry).length :=
  C9_digit_counts [⟨1, some 2, 0⟩, ⟨1, some 9, 1⟩, ⟨1, some 2, 2⟩] (by decide)

/-- C5 (as amended). For every price with `0 ≤ price < 10^21` and every integer pip size `p`
with `1 ≤ p ≤ 100`, and likewise with `p = 5` when the tick carries none, `handleTick` derives a
digit `d` in `0..9`: the last character of the price printed with exactly `p` fraction digits,
equal to `round(price * 10^p) mod 10` (a tie rounding up).  The price `4.12345` (the binary64
value nearest to it, as well as the decimal itself) with `p = 5` gives `5`, and the price
`10` with `p = 5` gives `0`. -/
theorem C5_digit_in_range (price : ℚ) (p : ℤ) (h0 : 0 ≤ price) (h21 : price < 10 ^ 21)
    (hp : 1 ≤ p) (hp100 : p ≤ 100) :
    (∃ d : Fin 10, extractDigit price (some p) = Except.ok (some d) ∧
      d.val = specDigit price p.toNat ∧
      ∃ str, toFixed (JSNum.fin price) p = Except.ok str ∧
        str.chars.getLast? = some (Nat.digitChar d.val)) ∧
    (∃ d : Fin 10, extractDigit price none = Except.ok (some d) ∧
      d.val = specDigit price 5 ∧
      ∃ str, toFixed (JSNum.fin price) 5 = Except.ok str ∧
        str.chars.getLast? = some (Nat.digitChar d.val)) ∧
    extractDigit (roundQ (412345 / 100000)) (some 5) = Except.ok (some 5) ∧
    extractDigit (412345 / 100000) (some 5) = Except.ok (some 5) ∧
    extractDigit 10 (some 5) = Except.ok (some 0) := by
  have hpz : p ≠ 0 := by omega
  have e1 : pipSizeOr (some p) 5 = ((p.toNat : ℕ) : ℤ) := by
    simp only [pipSizeOr, hpz, if_false]
    omega
  have e2 : pipSizeOr none 5 = ((5 : ℕ) : ℤ) := rfl
  refine ⟨?_, ?_, by decide!, by decide!, by decide!⟩
  · obtain ⟨d, h1, h2, h3, h4⟩ := extractDigit_of_range price (some p) p.toNat h0 h21 e1
      (by omega)
    refine ⟨d, h1, h2, _, ?_, h4⟩
    rw [← h3]
    simp only [pipSizeOr, hpz, if_false]
  · obtain ⟨d, h1, h2, h3, h4⟩ := extractDigit_of_range price none 5 h0 h21 e2 (by omega)
    exact ⟨d, h1, h2, _, h3, h4⟩

/-- C5 (as amended), at price `10` and pip size `5`. -/
theorem C5_digit_in_range_witness :
    (0 : ℚ) ≤ 10 ∧ (10 : ℚ) < 10 ^ 21 ∧
    ∃ d : Fin 10, extractDigit 10 (some 5) = Except.ok (some d) ∧ d.val = specDigit 10 5 :=
  ⟨by norm_num, by norm_num,
    (C5_digit_in_range 10 5 (by norm_num) (by norm_num) (by decide) (by decide)).1.imp
      (fun _ h => ⟨h.1, h.2.1⟩)⟩

/-- C5 as stated fails: with pip size `0` the operand `tick.pip_size || 5` is `5`, so price `7`
gives the digit `0` of `7.00000`, not the `7` of `round(7 * 10^0) mod 10`; with pip size `101`
the call `toFixed` throws a `RangeError` and no digit is derived; and the price `10^21` prints
as `1e+21`, whose last character is `1`, not `round(10^21 * 10^5) mod 10 = 0`. -/
theorem C5_counterexample :
    extractDigit 7 (some 0) = Except.ok (some 0) ∧ specDigit 7 0 = 7 ∧
    extractDigit 1 (some 101) = Except.error JSError.rangeError ∧
    extractDigit (10 ^ 21) (some 5) = Except.ok (some 1) ∧ specDigit (10 ^ 21) 5 = 0 := by
  decide!


/-! ## Symbol and strategy changes -/

/-- The asset-change listener empties the window, whatever the state. -/
theorem onAssetChange_ticks (s : State) (value : String) :
    (onAssetChange s value).ticks = [] ∧ (onAssetChange s value).currentSymbol = value := by
  exact ⟨rfl, rfl⟩

/-- The category-change listener never touches the window. -/
theorem onCategoryChange_ticks (s : State) (value : String) :
    (onCategoryChange s value).ticks = s.ticks := by
  unfold onCategoryChange populateAssetSelect
  split <;> rfl

/-- C6. After one tick on the start symbol `1HZ10V`, a category change to `jump` sets
`State.currentSymbol` to `JUMP_10` and leaves the tick received for `1HZ10V` in the window,
while the asset-change listener on the same state empties it. -/
theorem C6_category_change_keeps_window :
    ∃ s1, handleTick State.start ⟨2, 0, none⟩ = Except.ok s1 ∧
      s1.currentSymbol = "1HZ10V" ∧
      (onCategoryChange s1 "jump").currentSymbol = "JUMP_10" ∧
      (onCategoryChange s1 "jump").ticks = [⟨2, some 0, 0⟩] ∧
      (onAssetChange s1 "JUMP_10").ticks = [] := by
  obtain ⟨s1, h1, h2, h3, _⟩ := handleTick_ticks State.start ⟨2, 0, none⟩ (by decide)
  refine ⟨s1, h1, h3, ?_, ?_, rfl⟩
  · simp [onCategoryChange, populateAssetSelect, MARKET_ASSETS]
  · rw [onCategoryChange_ticks, h2]
    decide!

/-- C7 (as amended). For every state, after the asset-change listener has emptied the window,
`updateStats` returns without an error and leaves the statistics panel exactly as it was; the
placeholder is what `renderStatsUI` writes, so that the strategy-change listener on the emptied
window leaves the placeholder in the panel. -/
theorem C7_updateStats_on_emptied_window (s : State) (symbol strategy : String) :
    updateStats (onAssetChange s symbol) = Except.ok (onAssetChange s symbol) ∧
    (onAssetChange s symbol).statsContent = s.statsContent ∧
    ∃ s1, onStrategyChange (onAssetChange s symbol) strategy = Except.ok s1 ∧
      s1.statsContent = StatsHtml.collecting := by
  refine ⟨rfl, rfl, _, rfl, rfl⟩

/-- C7 as stated fails: after one tick under `even_odd` the panel shows `100.0` and `0.0`;
an asset change empties the window, and `updateStats` then leaves those statistics of the
former window in the panel instead of the placeholder. -/
theorem C7_counterexample :
    ∃ s1 s2, handleTick State.start ⟨2, 0, none⟩ = Except.ok s1 ∧
      s1.statsContent = StatsHtml.evenOdd (NumStr.dec false 1000 1) (NumStr.dec false 0 1) ∧
      (onAssetChange s1 "R_10").ticks = [] ∧
      updateStats (onAssetChange s1 "R_10") = Except.ok s2 ∧
      s2.statsContent = StatsHtml.evenOdd (NumStr.dec false 1000 1) (NumStr.dec false 0 1) ∧
      s2.statsContent ≠ StatsHtml.collecting := by
  obtain ⟨s1, h1, _⟩ := handleTick_ticks State.start ⟨2, 0, none⟩ (by decide)
  have hv : (handleTick State.start ⟨2, 0, none⟩).map (fun s => s.statsContent)
      = Except.ok (StatsHtml.evenOdd (NumStr.dec false 1000 1) (NumStr.dec false 0 1)) := by
    decide!
  rw [h1] at hv
  have hs1 : s1.statsContent
      = StatsHtml.evenOdd (NumStr.dec false 1000 1) (NumStr.dec false 0 1) := by
    simpa [Except.map] using hv
  refine ⟨s1, onAssetChange s1 "R_10", h1, hs1, rfl, rfl, hs1, ?_⟩
  rw [show (onAssetChange s1 "R_10").statsContent = s1.statsContent from rfl, hs1]
  exact fun h => StatsHtml.noConfusion h

/-- C2. On the empty window the `matches_differs` branch divides `0` by `0`: the confidence
is NaN, which `Math.max` and `Math.min` hand through, while the other two strategies give
`30` and `65`. -/
theorem C2_empty_window_confidence_nan :
    generatePrediction { State.start with currentStrategy := "matches_differs" }
      = { result := "MATCH 0", confidence := JSNum.nan } ∧
    generatePrediction { State.start with currentStrategy := "even_odd" }
      = { result := "HOLD", confidence := 30 } ∧
    generatePrediction { State.start with currentStrategy := "over_under" }
      = { result := "OVER", confidence := 65 } := by
  decide!


/-! ## Rounding to binary64: error bounds -/

theorem roundHalfEven_err (y : ℚ) : |(roundHalfEven y : ℚ) - y| ≤ 1 / 2 := by
  have h1 := Int.floor_le y
  have h2 := Int.lt_floor_add_one y
  unfold roundHalfEven
  simp only []
  split_ifs <;> rw [abs_le] <;> constructor <;> push_cast <;> linarith

theorem roundHalfEven_nonneg (y : ℚ) (hy : 0 ≤ y) : 0 ≤ roundHalfEven y := by
  have h0 : 0 ≤ ⌊y⌋ := Int.floor_nonneg.mpr hy
  unfold roundHalfEven
  simp only []
  split_ifs <;> omega

theorem log2Fuel_spec : ∀ (fuel n : ℕ), 1 ≤ n → n < 2 ^ fuel →
    2 ^ log2Fuel fuel n ≤ n ∧ n < 2 ^ (log2Fuel fuel n + 1) := by
  intro fuel
  induction fuel with
  | zero => intro n h1 h2; simp at h2; omega
  | succ k ih =>
    intro n h1 h2
    unfold log2Fuel
    by_cases h : 2 ≤ n
    · simp only [h, if_true]
      have hk : n / 2 < 2 ^ k := by
        rw [pow_succ] at h2
        omega
      obtain ⟨a, b⟩ := ih (n / 2) (by omega) hk
      constructor
      · rw [pow_succ]; omega
      · rw [pow_succ]; omega
    · simp only [h, if_false]
      constructor <;> simp <;> omega

theorem ilog2_spec (n : ℕ) (h : 1 ≤ n) : 2 ^ ilog2 n ≤ n ∧ n < 2 ^ (ilog2 n + 1) :=
  log2Fuel_spec n n h (Nat.lt_two_pow n)

theorem pow2_pos (k : ℤ) : 0 < pow2 k := zpow_pos (by norm_num) k

theorem pow2_succ (k : ℤ) : pow2 (k + 1) = 2 * pow2 k := by
  unfold pow2
  rw [zpow_add₀ (by norm_num : (2 : ℚ) ≠ 0), zpow_one, mul_comm]

theorem pow2_le {m n : ℤ} (h : m ≤ n) : pow2 m ≤ pow2 n :=
  zpow_le_zpow_right₀ (by norm_num) h

theorem pow2_lt_iff {m n : ℤ} : pow2 m < pow2 n ↔ m < n :=
  zpow_lt_zpow_iff_right₀ (by norm_num)

theorem pow2_sub_nat (a b : ℕ) : pow2 ((a : ℤ) - b) = (2 : ℚ) ^ a / 2 ^ b := by
  unfold pow2
  rw [zpow_sub₀ (by norm_num : (2 : ℚ) ≠ 0), zpow_natCast, zpow_natCast]

theorem pow_tsub_cross (a b : ℕ) : (2 : ℚ) ^ (a - b) * 2 ^ b = 2 ^ (b - a) * 2 ^ a := by
  rcases le_total a b with h | h
  · rw [Nat.sub_eq_zero_of_le h, pow_zero, one_mul, ← pow_add, Nat.sub_add_cancel h]
  · rw [Nat.sub_eq_zero_of_le h, pow_zero, one_mul, ← pow_add, Nat.sub_add_cancel h]

/-- The exponent computed by `binade` brackets `|x|` between two consecutive powers of two. -/
theorem binade_bounds (x : ℚ) (hx : x ≠ 0) :
    ∃ e : ℤ, binade x = max e (-1022) ∧ pow2 e ≤ |x| ∧ |x| < pow2 (e + 1) := by
  have hp : 1 ≤ x.num.natAbs := by
    have : x.num ≠ 0 := Rat.num_ne_zero.mpr hx
    omega
  have hq : 1 ≤ x.den := x.den_pos
  obtain ⟨pa, pb⟩ := ilog2_spec _ hp
  obtain ⟨qa, qb⟩ := ilog2_spec _ hq
  have habs : |x| = (x.num.natAbs : ℚ) / (x.den : ℚ) := by
    rw [Rat.abs_def, Rat.divInt_eq_div]
    simp only [Int.cast_natCast]
  have hP1 : (2 : ℚ) ^ ilog2 x.num.natAbs ≤ (x.num.natAbs : ℚ) := by exact_mod_cast pa
  have hP2 : (x.num.natAbs : ℚ) < 2 ^ (ilog2 x.num.natAbs + 1) := by exact_mod_cast pb
  have hQ1 : (2 : ℚ) ^ ilog2 x.den ≤ (x.den : ℚ) := by exact_mod_cast qa
  have hQ2 : (x.den : ℚ) < 2 ^ (ilog2 x.den + 1) := by exact_mod_cast qb
  have hQ0 : (0 : ℚ) < x.den := by exact_mod_cast hq
  have hcross := pow_tsub_cross (ilog2 x.num.natAbs) (ilog2 x.den)
  have hE := pow2_sub_nat (ilog2 x.num.natAbs) (ilog2 x.den)
  have h2a : (0 : ℚ) < 2 ^ ilog2 x.num.natAbs := by positivity
  have h2b : (0 : ℚ) < 2 ^ ilog2 x.den := by positivity
  have hT : (0 : ℚ) < 2 ^ (ilog2 x.num.natAbs - ilog2 x.den) := by positivity
  have hS : (0 : ℚ) < 2 ^ (ilog2 x.den - ilog2 x.num.natAbs) := by positivity
  have hP0 : (0 : ℚ) < x.num.natAbs := lt_of_lt_of_le h2a hP1
  -- the comparison made by `binade`, read in the rationals
  have hiff : x.den * 2 ^ (ilog2 x.num.natAbs - ilog2 x.den)
        ≤ x.num.natAbs * 2 ^ (ilog2 x.den - ilog2 x.num.natAbs)
      ↔ (2 : ℚ) ^ ilog2 x.num.natAbs * x.den ≤ x.num.natAbs * 2 ^ ilog2 x.den := by
    have hcast : x.den * 2 ^ (ilog2 x.num.natAbs - ilog2 x.den)
        ≤ x.num.natAbs * 2 ^ (ilog2 x.den - ilog2 x.num.natAbs)
      ↔ (x.den : ℚ) * 2 ^ (ilog2 x.num.natAbs - ilog2 x.den)
        ≤ x.num.natAbs * 2 ^ (ilog2 x.den - ilog2 x.num.natAbs) := by
      constructor
      · intro h; exact_mod_cast h
      · intro h; exact_mod_cast h
    rw [hcast]
    constructor
    · intro h
      have h1 := mul_le_mul_of_nonneg_right h (le_of_lt (mul_pos h2a h2b))
      have h3 : (2 : ℚ) ^ ilog2 x.num.natAbs * x.den
            * (2 ^ (ilog2 x.num.natAbs - ilog2 x.den) * 2 ^ ilog2 x.den)
          ≤ x.num.natAbs * 2 ^ ilog2 x.den
            * (2 ^ (ilog2 x.num.natAbs - ilog2 x.den) * 2 ^ ilog2 x.den) := by
        calc (2 : ℚ) ^ ilog2 x.num.natAbs * x.den
              * (2 ^ (ilog2 x.num.natAbs - ilog2 x.den) * 2 ^ ilog2 x.den)
            = x.den * 2 ^ (ilog2 x.num.natAbs - ilog2 x.den)
              * (2 ^ ilog2 x.num.natAbs * 2 ^ ilog2 x.den) := by ring
          _ ≤ x.num.natAbs * 2 ^ (ilog2 x.den - ilog2 x.num.natAbs)
              * (2 ^ ilog2 x.num.natAbs * 2 ^ ilog2 x.den) := h1
          _ = x.num.natAbs * 2 ^ ilog2 x.den
              * (2 ^ (ilog2 x.den - ilog2 x.num.natAbs) * 2 ^ ilog2 x.num.natAbs) := by ring
          _ = x.num.natAbs * 2 ^ ilog2 x.den
              * (2 ^ (ilog2 x.num.natAbs - ilog2 x.den) * 2 ^ ilog2 x.den) := by rw [hcross]
      exact le_of_mul_le_mul_right h3 (mul_pos hT h2b)
    · intro h
      have h1 := mul_le_mul_of_nonneg_right h (le_of_lt (mul_pos hT hS))
      have h3 : (x.den : ℚ) * 2 ^ (ilog2 x.num.natAbs - ilog2 x.den)
            * (2 ^ (ilog2 x.den - ilog2 x.num.natAbs) * 2 ^ ilog2 x.num.natAbs)
          ≤ x.num.natAbs * 2 ^ (ilog2 x.den - ilog2 x.num.natAbs)
            * (2 ^ (ilog2 x.den - ilog2 x.num.natAbs) * 2 ^ ilog2 x.num.natAbs) := by
        calc (x.den : ℚ) * 2 ^ (ilog2 x.num.natAbs - ilog2 x.den)
              * (2 ^ (ilog2 x.den - ilog2 x.num.natAbs) * 2 ^ ilog2 x.num.natAbs)
            = 2 ^ ilog2 x.num.natAbs * x.den
              * (2 ^ (ilog2 x.num.natAbs - ilog2 x.den)
                * 2 ^ (ilog2 x.den - ilog2 x.num.natAbs)) := by ring
          _ ≤ x.num.natAbs * 2 ^ ilog2 x.den
              * (2 ^ (ilog2 x.num.natAbs - ilog2 x.den)
                * 2 ^ (ilog2 x.den - ilog2 x.num.natAbs)) := h1
          _ = x.num.natAbs * 2 ^ (ilog2 x.den - ilog2 x.num.natAbs)
              * (2 ^ (ilog2 x.num.natAbs - ilog2 x.den) * 2 ^ ilog2 x.den) := by ring
          _ = x.num.natAbs * 2 ^ (ilog2 x.den - ilog2 x.num.natAbs)
              * (2 ^ (ilog2 x.den - ilog2 x.num.natAbs) * 2 ^ ilog2 x.num.natAbs) := by
                rw [hcross]
      exact le_of_mul_le_mul_right h3 (mul_pos hS h2a)
  by_cases hc : x.den * 2 ^ (ilog2 x.num.natAbs - ilog2 x.den)
      ≤ x.num.natAbs * 2 ^ (ilog2 x.den - ilog2 x.num.natAbs)
  · refine ⟨(ilog2 x.num.natAbs : ℤ) - ilog2 x.den, by simp only [binade, hc, if_true], ?_, ?_⟩
    · rw [hE, habs, div_le_div_iff₀ h2b hQ0]
      exact hiff.mp hc
    · rw [pow2_succ, hE, habs, mul_div_assoc', div_lt_div_iff₀ hQ0 h2b]
      rw [pow_succ] at hP2
      nlinarith
  · refine ⟨(ilog2 x.num.natAbs : ℤ) - ilog2 x.den - 1,
      by simp only [binade, hc, if_false], ?_, ?_⟩
    · have h2 : pow2 ((ilog2 x.num.natAbs : ℤ) - ilog2 x.den)
          = 2 * pow2 ((ilog2 x.num.natAbs : ℤ) - ilog2 x.den - 1) := by
        rw [← pow2_succ, sub_add_cancel]
      have h3 : pow2 ((ilog2 x.num.natAbs : ℤ) - ilog2 x.den - 1)
          = (2 : ℚ) ^ ilog2 x.num.natAbs / (2 * 2 ^ ilog2 x.den) := by
        rw [hE] at h2
        field_simp
        field_simp at h2
        linarith
      rw [h3, habs, div_le_div_iff₀ (by positivity) hQ0]
      rw [pow_succ] at hQ2
      nlinarith
    · rw [sub_add_cancel, hE, habs, div_lt_div_iff₀ hQ0 h2b]
      have := mt hiff.mpr hc
      linarith


theorem binade_eq (x : ℚ) (k : ℤ) (h1 : pow2 k ≤ |x|) (h2 : |x| < pow2 (k + 1))
    (hk : -1022 ≤ k) : binade x = k := by
  have hx : x ≠ 0 := by
    intro h
    rw [h, abs_zero] at h1
    exact absurd h1 (not_le.mpr (pow2_pos k))
  obtain ⟨e, he, b1, b2⟩ := binade_bounds x hx
  have c1 : e < k + 1 := pow2_lt_iff.mp (lt_of_le_of_lt b1 h2)
  have c2 : k < e + 1 := pow2_lt_iff.mp (lt_of_le_of_lt h1 b2)
  rw [he]
  omega

theorem binade_le (x : ℚ) (k : ℤ) (hx : x ≠ 0) (h2 : |x| < pow2 (k + 1)) (hk : -1022 ≤ k) :
    binade x ≤ k := by
  obtain ⟨e, he, b1, _⟩ := binade_bounds x hx
  have c1 : e < k + 1 := pow2_lt_iff.mp (lt_of_le_of_lt b1 h2)
  rw [he]
  omega

theorem roundQ_zero : roundQ 0 = 0 := by
  simp [roundQ, roundHalfEven]

/-- Rounding moves a number by at most half a unit in the last place of its binade. -/
theorem roundQ_err (x : ℚ) : |roundQ x - x| ≤ pow2 (binade x - 53) := by
  have hq := pow2_pos (binade x - 52)
  have h := roundHalfEven_err (x / pow2 (binade x - 52))
  have e1 : roundQ x - x
      = ((roundHalfEven (x / pow2 (binade x - 52)) : ℚ) - x / pow2 (binade x - 52))
        * pow2 (binade x - 52) := by
    unfold roundQ
    field_simp
  have e2 : pow2 (binade x - 52) = 2 * pow2 (binade x - 53) := by
    rw [← pow2_succ]
    congr 1
    ring
  rw [e1, abs_mul, abs_of_pos hq]
  calc |(roundHalfEven (x / pow2 (binade x - 52)) : ℚ) - x / pow2 (binade x - 52)|
        * pow2 (binade x - 52)
      ≤ 1 / 2 * pow2 (binade x - 52) := mul_le_mul_of_nonneg_right h (le_of_lt hq)
    _ = pow2 (binade x - 53) := by rw [e2]; ring

theorem roundQ_err_of_lt (x : ℚ) (k : ℤ) (h2 : |x| < pow2 (k + 1)) (hk : -1022 ≤ k) :
    |roundQ x - x| ≤ pow2 (k - 53) := by
  by_cases hx : x = 0
  · rw [hx, roundQ_zero]
    simp only [sub_zero, abs_zero]
    exact le_of_lt (pow2_pos _)
  · exact le_trans (roundQ_err x) (pow2_le (by have := binade_le x k hx h2 hk; omega))

theorem roundQ_nonneg (x : ℚ) (hx : 0 ≤ x) : 0 ≤ roundQ x := by
  unfold roundQ
  have hq := pow2_pos (binade x - 52)
  have : 0 ≤ roundHalfEven (x / pow2 (binade x - 52)) :=
    roundHalfEven_nonneg _ (div_nonneg hx (le_of_lt hq))
  have h2 : (0 : ℚ) ≤ (roundHalfEven (x / pow2 (binade x - 52)) : ℚ) := by exact_mod_cast this
  exact mul_nonneg h2 (le_of_lt hq)

/-- Below `2^(k+1)` with `k ≤ 1022` the rounded value is finite, within `2^(k-53)` of the exact
one, and non-negative when the exact one is. -/
theorem fl_near (x : ℚ) (k : ℤ) (h2 : |x| < pow2 (k + 1)) (hk : -1022 ≤ k) (hk2 : k ≤ 1022) :
    ∃ r, fl x = JSNum.fin r ∧ |r - x| ≤ pow2 (k - 53) ∧ (0 ≤ x → 0 ≤ r) := by
  have herr := roundQ_err_of_lt x k h2 hk
  have hsmall : pow2 (k - 53) < pow2 (k + 1) := pow2_lt_iff.mpr (by omega)
  have hbig : pow2 (k + 1 + 1) ≤ pow2 1024 := pow2_le (by omega)
  have h22 : pow2 (k + 1 + 1) = 2 * pow2 (k + 1) := pow2_succ _
  have hpos := pow2_pos (k + 1)
  rw [abs_le] at herr
  rw [abs_lt] at h2
  refine ⟨roundQ x, ?_, abs_le.mpr herr, roundQ_nonneg x⟩
  unfold fl
  simp only []
  rw [if_neg (by linarith), if_neg (by linarith)]


theorem pow2_neg53 : pow2 (-53) = 1 / 9007199254740992 := by
  unfold pow2; norm_num [zpow_neg]

theorem pow2_neg47 : pow2 (-47) = 1 / 140737488355328 := by
  unfold pow2; norm_num [zpow_neg]

theorem pow2_one : pow2 1 = 2 := by
  unfold pow2; norm_num

theorem pow2_seven : pow2 7 = 128 := by
  unfold pow2; norm_num

theorem jsNum_lit (n : ℕ) [n.AtLeastTwo] : (OfNat.ofNat n : JSNum) = JSNum.fin (OfNat.ofNat n) := by
  show JSNum.fin ((OfNat.ofNat n : ℕ) : ℚ) = _
  simp

/-- Numbers in `[0, 128)` round to a non-negative number within `2^-47`. -/
theorem fl_near_128 (x : ℚ) (h0 : 0 ≤ x) (h1 : x < 128) :
    ∃ r, fl x = JSNum.fin r ∧ |r - x| ≤ 1 / 140737488355328 ∧ 0 ≤ r := by
  obtain ⟨r, a, b, c⟩ := fl_near x 6 (by rw [abs_of_nonneg h0]; norm_num [pow2_seven]; exact h1)
    (by norm_num) (by norm_num)
  refine ⟨r, a, ?_, c h0⟩
  have : pow2 (6 - 53) = 1 / 140737488355328 := by rw [← pow2_neg47]; norm_num
  rw [← this]; exact b

/-- Numbers in `[0, 2)` round to a non-negative number within `2^-53`. -/
theorem fl_near_2 (x : ℚ) (h0 : 0 ≤ x) (h1 : x < 2) :
    ∃ r, fl x = JSNum.fin r ∧ |r - x| ≤ 1 / 9007199254740992 ∧ 0 ≤ r := by
  obtain ⟨r, a, b, c⟩ := fl_near x 0 (by rw [abs_of_nonneg h0]; norm_num [pow2_one]; exact h1)
    (by norm_num) (by norm_num)
  refine ⟨r, a, ?_, c h0⟩
  have : pow2 (0 - 53) = 1 / 9007199254740992 := by rw [← pow2_neg53]; norm_num
  rw [← this]; exact b


/-! ## Percentages of `updateStats` -/

/-- The percentage `((count / total) * 100).toFixed(1)` of a count out of a window of at most
one hundred ticks is a one-decimal string `d/10`, the tenth nearest to `100 * count / total`. -/
theorem percent_toFixed (c n : ℕ) (hc : c ≤ n) (hn : 1 ≤ n) (hn100 : n ≤ 100) :
    ∃ d : ℕ, d ≤ 1000 ∧
      toFixed (jsMul (jsDiv (ofNat c) (ofNat n)) 100) 1 = Except.ok (NumStr.dec false d 1) ∧
      |(d : ℚ) / 10 - 100 * (c : ℚ) / n| ≤ 1 / 20 := by
  have hnq : (0 : ℚ) < n := by exact_mod_cast hn
  have hcq : (c : ℚ) ≤ n := by exact_mod_cast hc
  have hc0 : (0 : ℚ) ≤ c := Nat.cast_nonneg c
  have hn100q : (n : ℚ) ≤ 100 := by exact_mod_cast hn100
  have hx1 : (c : ℚ) / n ≤ 1 := (div_le_one hnq).mpr hcq
  obtain ⟨r1, e1, b1, p1⟩ := fl_near_2 ((c : ℚ) / n) (div_nonneg hc0 (le_of_lt hnq))
    (by linarith)
  rw [abs_le] at b1
  obtain ⟨r2, e2, b2, p2⟩ := fl_near_128 (r1 * 100) (by positivity) (by linarith)
  rw [abs_le] at b2
  have hdiv : jsDiv (ofNat c) (ofNat n) = JSNum.fin r1 := by
    simp only [ofNat, jsDiv, ne_of_gt hnq, if_false, e1]
  have hmul : jsMul (jsDiv (ofNat c) (ofNat n)) 100 = JSNum.fin r2 := by
    rw [hdiv, jsNum_lit]
    simp only [jsMul, e2]
  have hr2 : r2 < 10 ^ 21 := by norm_num; linarith
  have hfix : toFixed (JSNum.fin r2) 1 = Except.ok (NumStr.dec false ⌊r2 * 10 ^ 1 + 1 / 2⌋₊ 1) := by
    rw [toFixed_one]
    simp only [toFixedDigits, abs_of_nonneg p2, not_le.mpr hr2, if_false, not_lt.mpr p2,
      decide_False]
  have harg : (0 : ℚ) ≤ r2 * 10 ^ 1 + 1 / 2 := by positivity
  have hf1 := Nat.floor_le harg
  have hf2 := Nat.lt_floor_add_one (r2 * 10 ^ 1 + 1 / 2)
  -- the exact percentage times ten, as a fraction over n
  have hexact : (c : ℚ) / n * n = c := div_mul_cancel₀ _ (ne_of_gt hnq)
  set d := ⌊r2 * 10 ^ 1 + 1 / 2⌋₊ with hd
  have hup : (2 * d * n : ℚ) - 2000 * c - n < 1 := by
    have : (d : ℚ) ≤ 1000 * ((c : ℚ) / n) + 1 / 2 + 1 / 1000000000000 := by
      norm_num at hf1 ⊢; linarith
    have h3 := mul_le_mul_of_nonneg_right this (le_of_lt hnq)
    nlinarith
  have hlo : (-1 : ℚ) < 2 * d * n - 2000 * c + n := by
    have : 1000 * ((c : ℚ) / n) + 1 / 2 - 1 / 1000000000000 < (d : ℚ) + 1 := by
      norm_num at hf2 ⊢; linarith
    have h3 := mul_lt_mul_of_pos_right this hnq
    nlinarith
  have hupz : (2 * d * n : ℤ) - 2000 * c - n < 1 := by exact_mod_cast hup
  have hloz : (-1 : ℤ) < 2 * d * n - 2000 * c + n := by exact_mod_cast hlo
  have hupz2 : (2 * d * n : ℤ) - 2000 * c ≤ n := by omega
  have hloz2 : -(n : ℤ) ≤ 2 * d * n - 2000 * c := by omega
  have hupq : (2 * d * n : ℚ) - 2000 * c ≤ n := by exact_mod_cast hupz2
  have hloq : -(n : ℚ) ≤ 2 * d * n - 2000 * c := by exact_mod_cast hloz2
  refine ⟨d, ?_, by rw [hmul]; exact hfix, ?_⟩
  · have : (2 * d * n : ℤ) ≤ 2001 * n := by
      have : (c : ℤ) ≤ n := by exact_mod_cast hc
      omega
    have hn' : (0 : ℤ) < n := by exact_mod_cast hn
    have : (2 * d : ℤ) ≤ 2001 := le_of_mul_le_mul_right this hn'
    omega
  · have e : (d : ℚ) / 10 - 100 * (c : ℚ) / n = (2 * d * n - 2000 * c) / (20 * n) := by
      field_simp; ring
    rw [e, abs_le]
    constructor
    · rw [le_div_iff₀ (by positivity)]; linarith
    · rw [div_le_iff₀ (by positivity)]; linarith


/-- The complement `(100 - pct).toFixed(1)` of a one-decimal percentage string `d/10` is the
one-decimal string `(1000 - d)/10`. -/
theorem complement_toFixed (d : ℕ) (hd : d ≤ 1000) :
    toFixed (jsSub 100 (NumStr.dec false d 1).toNumber) 1
      = Except.ok (NumStr.dec false (1000 - d) 1) := by
  rcases Nat.lt_or_ge d 1000 with hlt | hge
  · have hdq : (d : ℚ) ≤ 999 := by exact_mod_cast Nat.lt_succ_iff.mp hlt
    have hd0 : (0 : ℚ) ≤ d := Nat.cast_nonneg d
    obtain ⟨r3, e3, b3, p3⟩ := fl_near_128 ((d : ℚ) / 10) (by positivity) (by linarith)
    rw [abs_le] at b3
    obtain ⟨r4, e4, b4, p4⟩ := fl_near_128 (100 + -r3) (by linarith) (by linarith)
    rw [abs_le] at b4
    have hnum : (NumStr.dec false d 1).toNumber = JSNum.fin r3 := by
      simp only [NumStr.toNumber]
      rw [← e3]
      congr 1
      norm_num
    have hsub : jsSub 100 (NumStr.dec false d 1).toNumber = JSNum.fin r4 := by
      rw [hnum, jsNum_lit]
      simp only [jsSub, jsNeg, jsAdd, e4]
    have hr4 : r4 < 10 ^ 21 := by norm_num; linarith
    have hfl : ⌊r4 * 10 ^ 1 + 1 / 2⌋₊ = 1000 - d := by
      rw [Nat.floor_eq_iff (by positivity)]
      have hcast : ((1000 - d : ℕ) : ℚ) = 1000 - d := by
        rw [Nat.cast_sub hd]; norm_num
      rw [hcast]
      constructor
      · norm_num; linarith
      · norm_num; linarith
    rw [hsub, toFixed_one]
    simp only [toFixedDigits, abs_of_nonneg p4, not_le.mpr hr4, if_false, not_lt.mpr p4,
      decide_False, hfl]
  · have : d = 1000 := le_antisymm hd hge
    subst this
    decide!


theorem value_dec (d : ℕ) : (NumStr.dec false d 1).value = some ((d : ℚ) / 10) := by
  simp [NumStr.value]

/-- C8. For every non-empty window (of at most `max_ticks` ticks, as every window is), the
`even_odd` statistics that `updateStats` writes are two one-decimal strings `evenPct` and
`oddPct` whose decimal values add up to exactly `100`: `evenPct` is `100 * evens / n` rounded
to the nearest tenth, and `oddPct` is `(100 - evenPct).toFixed(1)`, derived from `evenPct` and
not from a count of the odd digits. -/
theorem C8_even_odd_percentages_sum (s : State) (hs : s.currentStrategy = "even_odd")
    (hne : s.ticks ≠ []) (hlen : s.ticks.length ≤ CONFIG.max_ticks) :
    ∃ (evenPct oddPct : NumStr) (ev od : ℚ) (d : ℕ),
      updateStats s = Except.ok { s with statsContent := StatsHtml.evenOdd evenPct oddPct } ∧
      evenPct = NumStr.dec false d 1 ∧ d ≤ 1000 ∧
      evenPct.value = some ev ∧ oddPct.value = some od ∧ ev + od = 100 ∧
      |ev - 100 * ((s.ticks.filter isEven).length : ℚ) / s.ticks.length| ≤ 1 / 20 ∧
      toFixed (jsSub 100 evenPct.toNumber) 1 = Except.ok oddPct := by
  have hpos : 1 ≤ s.ticks.length := List.length_pos.mpr hne
  have hn0 : s.ticks.length ≠ 0 := by omega
  obtain ⟨d, hd, h1, h2⟩ := percent_toFixed (s.ticks.filter isEven).length s.ticks.length
    (List.length_filter_le _ _) hpos hlen
  have h3 := complement_toFixed d hd
  have hcast : ((1000 - d : ℕ) : ℚ) = 1000 - d := by
    rw [Nat.cast_sub hd]; norm_num
  refine ⟨NumStr.dec false d 1, NumStr.dec false (1000 - d) 1, (d : ℚ) / 10,
    ((1000 - d : ℕ) : ℚ) / 10, d, ?_, rfl, hd, value_dec d, value_dec _, ?_, h2, h3⟩
  · simp only [updateStats, hn0, if_false, hs, if_true, h1, bind, Except.bind, h3, pure,
      Except.pure]
  · rw [hcast]; ring

/-- C8, at the window of digits `2, 3, 5`. -/
theorem C8_even_odd_percentages_sum_witness :
    ∃ (evenPct oddPct : NumStr) (ev od : ℚ) (d : ℕ),
      updateStats { State.start with ticks := [⟨1, some 2, 0⟩, ⟨1, some 3, 1⟩, ⟨1, some 5, 2⟩] }
        = Except.ok { State.start with
            ticks := [⟨1, some 2, 0⟩, ⟨1, some 3, 1⟩, ⟨1, some 5, 2⟩],
            statsContent := StatsHtml.evenOdd evenPct oddPct } ∧
      evenPct = NumStr.dec false d 1 ∧ d ≤ 1000 ∧
      evenPct.value = some ev ∧ oddPct.value = some od ∧ ev + od = 100 :=
  let ⟨evenPct, oddPct, ev, od, d, h1, h2, h3, h4, h5, h6, _⟩ :=
    C8_even_odd_percentages_sum
      { State.start with ticks := [⟨1, some 2, 0⟩, ⟨1, some 3, 1⟩, ⟨1, some 5, 2⟩] }
      rfl (by decide) (by decide)
  ⟨evenPct, oddPct, ev, od, d, h1, h2, h3, h4, h5, h6⟩


/-! ## Rounding to binary64: the grid -/

theorem roundHalfEven_intCast (z : ℤ) : roundHalfEven (z : ℚ) = z := by
  unfold roundHalfEven
  simp

theorem roundHalfEven_mono_int_le (y : ℚ) (z : ℤ) (h : (z : ℚ) - 1 / 2 < y) :
    z ≤ roundHalfEven y := by
  have := roundHalfEven_err y
  rw [abs_le] at this
  have h1 : (z : ℚ) - 1 < (roundHalfEven y : ℚ) := by linarith
  have h2 : z - 1 < roundHalfEven y := by exact_mod_cast h1
  omega

theorem roundHalfEven_mono_int_ge (y : ℚ) (z : ℤ) (h : y < (z : ℚ) + 1 / 2) :
    roundHalfEven y ≤ z := by
  have := roundHalfEven_err y
  rw [abs_le] at this
  have h1 : (roundHalfEven y : ℚ) < (z : ℚ) + 1 := by linarith
  have h2 : roundHalfEven y < z + 1 := by exact_mod_cast h1
  omega

/-- In a binade of exponent at most `52` the grid of representable values is `2^-j` times the
integers, for a natural number `j`. -/
theorem roundQ_scaled (x : ℚ) (hb : binade x ≤ 52) :
    ∃ j : ℕ, binade x = 52 - (j : ℤ) ∧
      roundQ x = (roundHalfEven (x * 2 ^ j) : ℚ) / 2 ^ j := by
  refine ⟨(52 - binade x).toNat, by omega, ?_⟩
  have hq : pow2 (binade x - 52) = 1 / (2 : ℚ) ^ (52 - binade x).toNat := by
    unfold pow2
    rw [show binade x - 52 = -(((52 - binade x).toNat : ℕ) : ℤ) by omega, zpow_neg,
      zpow_natCast, one_div]
  unfold roundQ
  rw [hq]
  have h2 : (0 : ℚ) < 2 ^ (52 - binade x).toNat := by positivity
  rw [div_div_eq_mul_div, div_one, mul_one_div]

/-- Rounding never crosses an integer from above, in binades of exponent at most `52`. -/
theorem roundQ_ge_int (x : ℚ) (m : ℤ) (hb : binade x ≤ 52) (h : (m : ℚ) ≤ x) :
    (m : ℚ) ≤ roundQ x := by
  obtain ⟨j, _, hr⟩ := roundQ_scaled x hb
  have h2 : (0 : ℚ) < 2 ^ j := by positivity
  have hz : ((m * 2 ^ j : ℤ) : ℚ) - 1 / 2 < x * 2 ^ j := by
    push_cast
    have := mul_le_mul_of_nonneg_right h (le_of_lt h2)
    linarith
  have := roundHalfEven_mono_int_le _ _ hz
  have hc : ((m * 2 ^ j : ℤ) : ℚ) ≤ (roundHalfEven (x * 2 ^ j) : ℚ) := by exact_mod_cast this
  rw [hr, le_div_iff₀ h2]
  push_cast at hc
  exact hc

/-- Rounding never crosses an integer from below, in binades of exponent at most `52`. -/
theorem roundQ_le_int (x : ℚ) (m : ℤ) (hb : binade x ≤ 52) (h : x ≤ (m : ℚ)) :
    roundQ x ≤ (m : ℚ) := by
  obtain ⟨j, _, hr⟩ := roundQ_scaled x hb
  have h2 : (0 : ℚ) < 2 ^ j := by positivity
  have hz : x * 2 ^ j < ((m * 2 ^ j : ℤ) : ℚ) + 1 / 2 := by
    push_cast
    have := mul_le_mul_of_nonneg_right h (le_of_lt h2)
    linarith
  have := roundHalfEven_mono_int_ge _ _ hz
  have hc : (roundHalfEven (x * 2 ^ j) : ℚ) ≤ ((m * 2 ^ j : ℤ) : ℚ) := by exact_mod_cast this
  rw [hr, div_le_iff₀ h2]
  push_cast at hc
  exact hc

/-- Half-integers are representable, in binades of exponent at most `51`. -/
theorem roundQ_half (k : ℤ) (hb : binade ((k : ℚ) / 2) ≤ 51) :
    roundQ ((k : ℚ) / 2) = (k : ℚ) / 2 := by
  obtain ⟨j, hj, hr⟩ := roundQ_scaled ((k : ℚ) / 2) (by omega)
  have h2 : (0 : ℚ) < 2 ^ j := by positivity
  obtain ⟨i, rfl⟩ : ∃ i : ℕ, j = i + 1 := ⟨j - 1, by omega⟩
  have e : (k : ℚ) / 2 * 2 ^ (i + 1) = ((k * 2 ^ i : ℤ) : ℚ) := by
    push_cast
    rw [pow_succ]
    ring
  rw [hr, e, roundHalfEven_intCast, ← e]
  field_simp
  ring


/-- Below `128` in magnitude nothing overflows: the result is the rounded rational. -/
theorem fl_eq_roundQ (x : ℚ) (h : |x| < 128) : fl x = JSNum.fin (roundQ x) := by
  obtain ⟨r, hr, _, _⟩ := fl_near x 6 (by norm_num [pow2_seven]; exact h) (by norm_num)
    (by norm_num)
  have : fl x = JSNum.fin (roundQ x) ∨ fl x = JSNum.posInf ∨ fl x = JSNum.negInf := by
    unfold fl
    simp only []
    split_ifs <;> simp
  rcases this with h1 | h1 | h1
  · exact h1
  · rw [h1] at hr; exact absurd hr (by simp)
  · rw [h1] at hr; exact absurd hr (by simp)

theorem binade_le_six (x : ℚ) (h : |x| < 128) : binade x ≤ 6 := by
  by_cases hx : x = 0
  · rw [hx]; decide!
  · exact binade_le x 6 hx (by norm_num [pow2_seven]; exact h) (by norm_num)

/-- Half-integers of magnitude below `128` are binary64 values. -/
theorem fl_half (k : ℤ) (h : |(k : ℚ) / 2| < 128) : fl ((k : ℚ) / 2) = JSNum.fin ((k : ℚ) / 2) := by
  rw [fl_eq_roundQ _ h, roundQ_half k (by have := binade_le_six _ h; omega)]

theorem roundQ_err_128 (x : ℚ) (h : |x| < 128) : |roundQ x - x| ≤ 1 / 140737488355328 := by
  have := roundQ_err_of_lt x 6 (by norm_num [pow2_seven]; exact h) (by norm_num)
  have e : pow2 (6 - 53) = 1 / 140737488355328 := by rw [← pow2_neg47]; norm_num
  rw [← e]; exact this


/-! ## The `matches_differs` confidence -/

theorem pow2_neg3 : pow2 (-3) = 1 / 8 := by
  unfold pow2; norm_num [zpow_neg]

theorem pow2_neg57 : pow2 (-57) = 1 / 144115188075855872 := by
  unfold pow2; norm_num [zpow_neg]

theorem pow2_neg50 : pow2 (-50) = 1 / 1125899906842624 := by
  unfold pow2; norm_num [zpow_neg]

theorem pow2_three : pow2 3 = 8 := by
  unfold pow2; norm_num

theorem pow2_four : pow2 4 = 16 := by
  unfold pow2; norm_num

/-- Rounding a quotient in `[0, 1/10]`. -/
theorem roundQ_tenth (x : ℚ) (h0 : 0 ≤ x) (h1 : x ≤ 1 / 10) :
    0 ≤ roundQ x ∧ |roundQ x - x| ≤ 1 / 144115188075855872 := by
  have b1 := roundQ_err_of_lt x (-4)
    (by rw [abs_of_nonneg h0]; norm_num [pow2_neg3]; linarith) (by norm_num)
  rw [show ((-4 : ℤ) - 53) = -57 by norm_num, pow2_neg57] at b1
  exact ⟨roundQ_nonneg x h0, b1⟩

/-- Rounding a product in `[0, 10 + 100 * 2^-57]`: the result does not exceed `10`. -/
theorem roundQ_ten (x : ℚ) (h0 : 0 ≤ x) (h1 : x ≤ 10 + 100 / 144115188075855872) :
    0 ≤ roundQ x ∧ roundQ x ≤ 10 ∧ |roundQ x - x| ≤ 1 / 1125899906842624 := by
  have a2 : |x| < 128 := by rw [abs_of_nonneg h0]; linarith
  have b2 := roundQ_err_of_lt x 3
    (by rw [abs_of_nonneg h0]; norm_num [pow2_four]; linarith) (by norm_num)
  rw [show ((3 : ℤ) - 53) = -50 by norm_num, pow2_neg50] at b2
  refine ⟨roundQ_nonneg x h0, ?_, b2⟩
  have hb6 := binade_le_six x a2
  by_cases h8 : x < 8
  · have := roundQ_le_int x 8 (by omega) (by push_cast; exact le_of_lt h8)
    push_cast at this
    linarith
  · have hbin : binade x = 3 :=
      binade_eq x 3 (by rw [abs_of_nonneg h0, pow2_three]; exact not_lt.mp h8)
        (by rw [abs_of_nonneg h0]; norm_num [pow2_four]; linarith) (by norm_num)
    obtain ⟨j, hj, hr⟩ := roundQ_scaled x (by omega)
    have hj49 : j = 49 := by omega
    subst hj49
    have hz : x * 2 ^ 49 < ((5629499534213120 : ℤ) : ℚ) + 1 / 2 := by
      push_cast
      norm_num at h1 ⊢
      linarith
    have := roundHalfEven_mono_int_ge _ _ hz
    have hc : (roundHalfEven (x * 2 ^ 49) : ℚ) ≤ ((5629499534213120 : ℤ) : ℚ) := by
      exact_mod_cast this
    rw [hr, div_le_iff₀ (by positivity)]
    push_cast at hc
    norm_num
    exact hc

/-- Rounding a difference in `[90, 100]`: the result stays in `[90, 100]`. -/
theorem roundQ_ninety (x : ℚ) (h0 : 90 ≤ x) (h1 : x ≤ 100) :
    90 ≤ roundQ x ∧ roundQ x ≤ 100 ∧ |roundQ x - x| ≤ 1 / 140737488355328 := by
  have a3 : |x| < 128 := by rw [abs_of_nonneg (by linarith)]; linarith
  have hb6 := binade_le_six x a3
  have g3 := roundQ_ge_int x 90 (by omega) (by push_cast; exact h0)
  have l3 := roundQ_le_int x 100 (by omega) (by push_cast; exact h1)
  push_cast at g3 l3
  exact ⟨g3, l3, roundQ_err_128 x a3⟩

/-- The unclamped confidence `100 - (minFreq / total) * 100` when the least count is at most a
tenth of the window: a number in `[90, 100]` within `10^-13` of the exact value. -/
theorem matchConfidence_spec (m n : ℕ) (hn : 1 ≤ n) (hm : 10 * m ≤ n) :
    ∃ u : ℚ, matchConfidence m n = JSNum.fin u ∧ 90 ≤ u ∧ u ≤ 100 ∧
      |u - (100 - 100 * (m : ℚ) / n)| ≤ 1 / 10 ^ 13 := by
  have hnq : (0 : ℚ) < n := by exact_mod_cast hn
  have hmq : (10 : ℚ) * m ≤ n := by exact_mod_cast hm
  have hm0 : (0 : ℚ) ≤ m := Nat.cast_nonneg m
  have hx1a : (0 : ℚ) ≤ (m : ℚ) / n := div_nonneg hm0 (le_of_lt hnq)
  have hx1b : (m : ℚ) / n ≤ 1 / 10 := by
    rw [div_le_div_iff₀ hnq (by norm_num)]; linarith
  obtain ⟨p1, b1⟩ := roundQ_tenth _ hx1a hx1b
  have e1 := fl_eq_roundQ ((m : ℚ) / n) (by rw [abs_of_nonneg hx1a]; linarith)
  generalize roundQ ((m : ℚ) / n) = r1 at p1 b1 e1
  rw [abs_le] at b1
  have hx2a : (0 : ℚ) ≤ r1 * 100 := by positivity
  have hx2b : r1 * 100 ≤ 10 + 100 / 144115188075855872 := by linarith
  obtain ⟨p2, l2, b2⟩ := roundQ_ten _ hx2a hx2b
  have e2 := fl_eq_roundQ (r1 * 100) (by rw [abs_of_nonneg hx2a]; linarith)
  generalize roundQ (r1 * 100) = r2 at p2 l2 b2 e2
  rw [abs_le] at b2
  have hx3a : (90 : ℚ) ≤ 100 + -r2 := by linarith
  have hx3b : 100 + -r2 ≤ (100 : ℚ) := by linarith
  obtain ⟨g3, l3, b3⟩ := roundQ_ninety _ hx3a hx3b
  have e3 := fl_eq_roundQ (100 + -r2) (by rw [abs_of_nonneg (by linarith)]; linarith)
  generalize roundQ (100 + -r2) = r3 at g3 l3 b3 e3
  rw [abs_le] at b3
  refine ⟨r3, ?_, g3, l3, ?_⟩
  · unfold matchConfidence
    have hdiv : jsDiv (ofNat m) (ofNat n) = JSNum.fin r1 := by
      simp only [ofNat, jsDiv, ne_of_gt hnq, if_false, e1]
    rw [hdiv, jsNum_lit]
    simp only [jsMul, e2, jsSub, jsNeg, jsAdd, e3]
  · rw [abs_le]
    have e : 100 * (m : ℚ) / n = (m : ℚ) / n * 100 := by ring
    rw [e]
    constructor
    · norm_num; linarith
    · norm_num; linarith


/-! ## Clamp, minimum and first index -/

theorem mathMax_fin (a b : ℚ) : mathMax (JSNum.fin a) (JSNum.fin b) = JSNum.fin (max a b) := by
  unfold mathMax jsLt
  by_cases h : a < b
  · simp [h, max_eq_right (le_of_lt h)]
  · simp [h, max_eq_left (not_lt.mp h)]

theorem mathMin_fin (a b : ℚ) : mathMin (JSNum.fin a) (JSNum.fin b) = JSNum.fin (min a b) := by
  unfold mathMin jsLt
  by_cases h : b < a
  · simp [h, min_eq_right (le_of_lt h)]
  · simp [h, min_eq_left (not_lt.mp h)]

/-- On a number the clamp is the interval clamp `min (max c 10) 95`. -/
theorem clampConfidence_fin (c : ℚ) : clampConfidence (JSNum.fin c) = JSNum.fin (clampQ c) := by
  unfold clampConfidence clampQ
  rw [jsNum_lit, jsNum_lit, mathMax_fin, mathMin_fin]

theorem foldl_mathMin (l : List ℕ) : ∀ a : ℕ,
    l.foldl (fun acc c => mathMin acc (ofNat c)) (JSNum.fin a) = JSNum.fin ((l.foldl min a : ℕ) : ℚ) := by
  induction l with
  | nil => intro a; rfl
  | cons x xs ih =>
    intro a
    simp only [List.foldl_cons, ofNat, mathMin_fin]
    rw [← Nat.cast_min]
    exact ih (min a x)

theorem foldl_min_le (l : List ℕ) : ∀ a : ℕ, l.foldl min a ≤ a ∧ ∀ x ∈ l, l.foldl min a ≤ x := by
  induction l with
  | nil => intro a; simp
  | cons y ys ih =>
    intro a
    obtain ⟨h1, h2⟩ := ih (min a y)
    simp only [List.foldl_cons, List.mem_cons]
    refine ⟨le_trans h1 (min_le_left _ _), ?_⟩
    rintro x (rfl | hx)
    · exact le_trans h1 (min_le_right _ _)
    · exact h2 x hx

theorem foldl_min_mem (l : List ℕ) : ∀ a : ℕ, l.foldl min a = a ∨ l.foldl min a ∈ l := by
  induction l with
  | nil => intro a; simp
  | cons y ys ih =>
    intro a
    simp only [List.foldl_cons, List.mem_cons]
    rcases ih (min a y) with h | h
    · rw [h]
      rcases min_choice a y with h2 | h2
      · left; exact h2
      · right; left; exact h2
    · right; right; exact h

/-- The call `Math.min(...counts)` on a non-empty array is its least element. -/
theorem spreadMin_spec (counts : List ℕ) (hne : counts ≠ []) :
    ∃ m : ℕ, spreadMin counts = JSNum.fin (m : ℚ) ∧ m ∈ counts ∧ ∀ x ∈ counts, m ≤ x := by
  cases counts with
  | nil => exact absurd rfl hne
  | cons c cs =>
    refine ⟨cs.foldl min c, ?_, ?_, ?_⟩
    · unfold spreadMin
      simp only [List.foldl_cons]
      have : mathMin JSNum.posInf (ofNat c) = JSNum.fin (c : ℚ) := by
        simp [mathMin, ofNat, jsLt]
      rw [this]
      exact foldl_mathMin cs c
    · rcases foldl_min_mem cs c with h | h
      · rw [h]; exact List.mem_cons_self _ _
      · exact List.mem_cons_of_mem _ h
    · intro x hx
      obtain ⟨h1, h2⟩ := foldl_min_le cs c
      rcases List.mem_cons.mp hx with rfl | hx
      · exact h1
      · exact h2 x hx

/-- The call `counts.indexOf(m)` for a value `m` held by the array: the first index holding it. -/
theorem indexOf_spec (counts : List ℕ) (m : ℕ) (hm : m ∈ counts) :
    ∃ i : ℕ, indexOf counts (JSNum.fin (m : ℚ)) = (i : ℤ) ∧ counts[i]? = some m ∧
      ∀ j, j < i → counts[j]? ≠ some m := by
  have hp : ∀ c : ℕ, decide (ofNat c = JSNum.fin (m : ℚ)) = decide (c = m) := by
    intro c
    simp [ofNat]
  have hfun : (fun c => decide (ofNat c = JSNum.fin (m : ℚ))) = (fun c => decide (c = m)) :=
    funext hp
  have hex : ∃ x ∈ counts, decide (x = m) = true := ⟨m, hm, by simp⟩
  have hlt : counts.findIdx (fun c => decide (c = m)) < counts.length :=
    List.findIdx_lt_length_of_exists hex
  refine ⟨counts.findIdx (fun c => decide (c = m)), ?_, ?_, ?_⟩
  · unfold indexOf
    simp only [hfun, hlt, if_true]
  · have := List.findIdx_getElem (w := hlt)
    rw [List.getElem?_eq_getElem hlt]
    simpa using this
  · intro j hj hc
    have hjl : j < counts.length := lt_trans hj hlt
    have := List.not_of_lt_findIdx hj
    rw [List.getElem?_eq_getElem hjl] at hc
    simp at this hc
    exact this hc

theorem length_mul_le_sum (l : List ℕ) (m : ℕ) (h : ∀ x ∈ l, m ≤ x) : l.length * m ≤ l.sum := by
  induction l with
  | nil => simp
  | cons y ys ih =>
    have h1 := h y (List.mem_cons_self _ _)
    have h2 := ih (fun x hx => h x (List.mem_cons_of_mem _ hx))
    simp only [List.length_cons, List.sum_cons]
    rw [Nat.add_mul]
    omega


/-! ## The `matches_differs` call -/

theorem generatePrediction_matches (s : State) (hs : s.currentStrategy = "matches_differs") :
    generatePrediction s =
      { result := "MATCH " ++ toString (indexOf (digitCounts s.ticks)
          (spreadMin (digitCounts s.ticks))),
        confidence := clampConfidence (jsSub 100 (jsMul
          (jsDiv (spreadMin (digitCounts s.ticks)) (ofNat s.ticks.length)) 100)) } := by
  simp [generatePrediction, hs]

/-- The `matches_differs` call on a non-empty window, in terms of the ten digit counts. -/
theorem matches_core (s : State) (hs : s.currentStrategy = "matches_differs")
    (hne : s.ticks ≠ []) :
    ∃ (d : Fin 10) (m : ℕ) (u : ℚ),
      (∀ k : Fin 10, m ≤ s.ticks.countP (fun t => decide (t.digit = some k))) ∧
      s.ticks.countP (fun t => decide (t.digit = some d)) = m ∧
      (∀ k : Fin 10, s.ticks.countP (fun t => decide (t.digit = some k)) = m → d ≤ k) ∧
      (generatePrediction s).result = "MATCH " ++ toString d.val ∧
      10 * m ≤ s.ticks.length ∧
      matchConfidence m s.ticks.length = JSNum.fin u ∧ 90 ≤ u ∧ u ≤ 100 ∧
      |u - (100 - 100 * (m : ℚ) / s.ticks.length)| ≤ 1 / 10 ^ 13 ∧
      (generatePrediction s).confidence = clampConfidence (matchConfidence m s.ticks.length) ∧
      (generatePrediction s).confidence = JSNum.fin (min u 95) := by
  have hlen := digitCounts_length s.ticks
  have hcne : digitCounts s.ticks ≠ [] := by
    intro h; rw [h] at hlen; simp at hlen
  obtain ⟨m, hmin, hmem, hle⟩ := spreadMin_spec _ hcne
  obtain ⟨i, hidx, hget, hfirst⟩ := indexOf_spec _ m hmem
  have hi : i < 10 := by
    rw [← hlen]
    by_contra hcon
    rw [List.getElem?_eq_none (not_lt.mp hcon)] at hget
    simp at hget
  have hcount : ∀ k : Fin 10, (digitCounts s.ticks)[k.val]?
      = some (s.ticks.countP (fun t => decide (t.digit = some k))) := by
    intro k
    have hlt : k.val < (digitCounts s.ticks).length := by rw [hlen]; exact k.isLt
    have := digitCounts_getD s.ticks k
    rw [List.getD_eq_getElem?_getD, List.getElem?_eq_getElem hlt] at this
    rw [List.getElem?_eq_getElem hlt]
    exact congrArg some this
  have hpos : 1 ≤ s.ticks.length := List.length_pos.mpr hne
  have hten : 10 * m ≤ s.ticks.length := by
    have h1 := length_mul_le_sum _ m hle
    rw [hlen, digitCounts_sum] at h1
    exact le_trans h1 (List.countP_le_length _)
  obtain ⟨u, hu, h90, h100, hnear⟩ := matchConfidence_spec m s.ticks.length hpos hten
  have hgp := generatePrediction_matches s hs
  rw [hmin, hidx] at hgp
  have hconf : (generatePrediction s).confidence
      = clampConfidence (matchConfidence m s.ticks.length) := by
    rw [hgp]; rfl
  refine ⟨⟨i, hi⟩, m, u, ?_, ?_, ?_, ?_, hten, hu, h90, h100, hnear, hconf, ?_⟩
  · intro k
    have h1 := hcount k
    have hlt : k.val < (digitCounts s.ticks).length := by rw [hlen]; exact k.isLt
    have hk : (digitCounts s.ticks)[k.val] ∈ digitCounts s.ticks := List.getElem_mem _
    have h2 := hle _ hk
    rw [List.getElem?_eq_getElem hlt] at h1
    have h3 := Option.some.inj h1
    rw [← h3]; exact h2
  · have h1 := hcount ⟨i, hi⟩
    rw [hget] at h1
    exact (Option.some.inj h1).symm
  · intro k hk
    by_contra hcon
    have hlt : k.val < i := not_le.mp hcon
    have h1 := hcount k
    rw [hk] at h1
    exact hfirst k.val hlt h1
  · rw [hgp]; rfl
  · rw [hconf, hu, clampConfidence_fin]
    unfold clampQ
    rw [max_eq_left (by linarith)]


/-- C3. For every non-empty window, under `matches_differs` the call `generatePrediction`
returns the label `MATCH d`, where `d` is the smallest digit in `0..9` whose number of
occurrences in the window is the minimum `minFreq` over all ten digits (a digit that never
occurs counting `0`), and the confidence `min(max(100 - (minFreq / n) * 100, 10), 95)` as
binary64 arithmetic evaluates it, which is within `10^-13` of the exact
`min(max(100 - 100 * minFreq / n, 10), 95)` and is exactly `95` when `minFreq = 0`.  For the
window of digits `2,2,2,2,2,2,2,2,2,9` the result is `MATCH 0` with confidence `95`. -/
theorem C3_matches_differs_call (s : State) (hs : s.currentStrategy = "matches_differs")
    (hne : s.ticks ≠ []) :
    (∃ (d : Fin 10) (minFreq : ℕ) (c : ℚ),
      (∀ k : Fin 10, minFreq ≤ s.ticks.countP (fun t => decide (t.digit = some k))) ∧
      s.ticks.countP (fun t => decide (t.digit = some d)) = minFreq ∧
      (∀ k : Fin 10, s.ticks.countP (fun t => decide (t.digit = some k)) = minFreq → d ≤ k) ∧
      (generatePrediction s).result = "MATCH " ++ toString d.val ∧
      (generatePrediction s).confidence
        = mathMin (mathMax
            (jsSub 100 (jsMul (jsDiv (ofNat minFreq) (ofNat s.ticks.length)) 100)) 10) 95 ∧
      (generatePrediction s).confidence = JSNum.fin c ∧
      |c - min (max (100 - 100 * (minFreq : ℚ) / s.ticks.length) 10) 95| ≤ 1 / 10 ^ 13 ∧
      (minFreq = 0 → c = 95)) ∧
    generatePrediction (stateOf "matches_differs" [2, 2, 2, 2, 2, 2, 2, 2, 2, 9])
      = { result := "MATCH 0", confidence := JSNum.fin 95 } := by
  refine ⟨?_, by decide!⟩
  obtain ⟨d, m, u, h1, h2, h3, h4, _, hu, h90, h100, hnear, hconf, hfin⟩ :=
    matches_core s hs hne
  refine ⟨d, m, min u 95, h1, h2, h3, h4, hconf, hfin, ?_, ?_⟩
  · rw [abs_le] at hnear ⊢
    have hx : (90 : ℚ) - 1 ≤ 100 - 100 * (m : ℚ) / s.ticks.length := by linarith
    rw [max_eq_left (by linarith)]
    rcases le_total u 95 with hu95 | hu95
    · rcases le_total (100 - 100 * (m : ℚ) / s.ticks.length) 95 with hx95 | hx95
      · rw [min_eq_left hu95, min_eq_left hx95]; exact hnear
      · rw [min_eq_left hu95, min_eq_right hx95]; constructor <;> linarith
    · rcases le_total (100 - 100 * (m : ℚ) / s.ticks.length) 95 with hx95 | hx95
      · rw [min_eq_right hu95, min_eq_left hx95]; constructor <;> linarith
      · rw [min_eq_right hu95, min_eq_right hx95]; norm_num
  · intro hm0
    rw [hm0] at hnear
    rw [abs_le] at hnear
    norm_num at hnear
    exact min_eq_right (by linarith)

/-- C3, at the window of digits `2,2,2,2,2,2,2,2,2,9`. -/
theorem C3_matches_differs_call_witness :
    ∃ (d : Fin 10) (minFreq : ℕ),
      (∀ k : Fin 10, minFreq ≤ (windowOf [2, 2, 2, 2, 2, 2, 2, 2, 2, 9]).countP
        (fun t => decide (t.digit = some k))) ∧
      (windowOf [2, 2, 2, 2, 2, 2, 2, 2, 2, 9]).countP
        (fun t => decide (t.digit = some d)) = minFreq ∧
      (generatePrediction (stateOf "matches_differs" [2, 2, 2, 2, 2, 2, 2, 2, 2, 9])).result
        = "MATCH " ++ toString d.val :=
  let ⟨⟨d, m, _, h1, h2, _, h4, _⟩, _⟩ := C3_matches_differs_call
    (stateOf "matches_differs" [2, 2, 2, 2, 2, 2, 2, 2, 2, 9]) rfl (by decide)
  ⟨d, m, h1, h2, h4⟩

/-- C10. For every non-empty window, under `matches_differs` the least of the ten digit
counts is at most a tenth of the window length, the unclamped confidence
`100 - (minFreq / n) * 100` is a number `u` with `90 ≤ u ≤ 100`, and the confidence returned
is `min u 95`, in `[90, 95]`: only the upper bound of the clamp is ever applied. -/
theorem C10_matches_differs_confidence_range (s : State)
    (hs : s.currentStrategy = "matches_differs") (hne : s.ticks ≠ []) :
    ∃ (minFreq : ℕ) (u c : ℚ),
      (∀ k : Fin 10, minFreq ≤ s.ticks.countP (fun t => decide (t.digit = some k))) ∧
      (∃ d : Fin 10, s.ticks.countP (fun t => decide (t.digit = some d)) = minFreq) ∧
      10 * minFreq ≤ s.ticks.length ∧
      jsSub 100 (jsMul (jsDiv (ofNat minFreq) (ofNat s.ticks.length)) 100) = JSNum.fin u ∧
      90 ≤ u ∧ u ≤ 100 ∧
      (generatePrediction s).confidence = JSNum.fin c ∧ c = min u 95 ∧ 90 ≤ c ∧ c ≤ 95 := by
  obtain ⟨d, m, u, h1, h2, _, _, hten, hu, h90, h100, _, _, hfin⟩ := matches_core s hs hne
  exact ⟨m, u, min u 95, h1, ⟨d, h2⟩, hten, hu, h90, h100, hfin, rfl,
    le_min h90 (by norm_num), min_le_right _ _⟩

/-- C10, at the window holding each digit once. -/
theorem C10_matches_differs_confidence_range_witness :
    ∃ c : ℚ, (generatePrediction
        (stateOf "matches_differs" [0, 1, 2, 3, 4, 5, 6, 7, 8, 9])).confidence = JSNum.fin c ∧
      90 ≤ c ∧ c ≤ 95 :=
  let ⟨_, _, c, _, _, _, _, _, _, h7, _, h9, h10⟩ := C10_matches_differs_confidence_range
    (stateOf "matches_differs" [0, 1, 2, 3, 4, 5, 6, 7, 8, 9]) rfl (by decide)
  ⟨c, h7, h9, h10⟩


/-! ## The `even_odd` call -/

theorem sameFloor_spec (v : JSNum) (x : ℚ) (h : sameFloor v x = true) :
    ∃ r, v = JSNum.fin r ∧ ∀ e : ℤ, r < e ↔ x < e := by
  cases v with
  | fin r =>
    simp only [sameFloor, decide_eq_true_eq] at h
    refine ⟨r, rfl, fun e => ?_⟩
    rw [← Int.floor_lt, ← Int.floor_lt, h]
  | posInf => simp [sameFloor] at h
  | negInf => simp [sameFloor] at h
  | nan => simp [sameFloor] at h

theorem sameCeil_spec (v : JSNum) (x : ℚ) (h : sameCeil v x = true) :
    ∃ r, v = JSNum.fin r ∧ ∀ e : ℤ, (e : ℚ) < r ↔ (e : ℚ) < x := by
  cases v with
  | fin r =>
    simp only [sameCeil, decide_eq_true_eq] at h
    refine ⟨r, rfl, fun e => ?_⟩
    rw [← Int.lt_ceil, ← Int.lt_ceil, h]
  | posInf => simp [sameCeil] at h
  | negInf => simp [sameCeil] at h
  | nan => simp [sameCeil] at h

/-- The product `total * 0.55` for each window length up to one hundred has the same integers
below it as the exact `0.55 * total`. -/
theorem mul_055_table : ∀ n : Fin 101,
    sameFloor (jsMul (ofNat n.val) (jsLit (55 / 100))) (55 / 100 * n.val) = true := by
  decide!

/-- The product `total * 0.45` for each window length up to one hundred has the same integers
above it as the exact `0.45 * total`. -/
theorem mul_045_table : ∀ n : Fin 101,
    sameCeil (jsMul (ofNat n.val) (jsLit (45 / 100))) (45 / 100 * n.val) = true := by
  decide!

theorem fl_half_of (x : ℚ) (k : ℤ) (hx : x = (k : ℚ) / 2) (h : |x| < 128) :
    fl x = JSNum.fin x := by
  subst hx
  exact fl_half k h

theorem mul_half (n : ℕ) (hn : n ≤ 100) :
    jsMul (ofNat n) (jsLit (5 / 10)) = JSNum.fin ((n : ℚ) / 2) := by
  have h1 : jsLit (5 / 10) = JSNum.fin (1 / 2) := by
    unfold jsLit
    have := fl_half_of (5 / 10) 1 (by norm_num) (by norm_num [abs_of_nonneg])
    rw [this]; norm_num
  have hnq : (n : ℚ) ≤ 100 := by exact_mod_cast hn
  have hn0 : (0 : ℚ) ≤ n := Nat.cast_nonneg n
  rw [h1]
  simp only [ofNat, jsMul]
  have := fl_half_of ((n : ℚ) * (1 / 2)) (n : ℤ) (by push_cast; ring)
    (by rw [abs_of_nonneg (by positivity)]; linarith)
  rw [this]
  congr 1
  ring


theorem generatePrediction_even_odd (s : State) (hs : s.currentStrategy = "even_odd") :
    generatePrediction s = evenOddCall (s.ticks.filter isEven).length s.ticks.length := by
  simp [generatePrediction, hs, evenOddCall]

/-- On at most one hundred ticks the `even_odd` branch, evaluated in binary64 arithmetic, is
the rule of the specification evaluated in exact arithmetic. -/
theorem evenOddCall_eq_spec (e n : ℕ) (he : e ≤ n) (hn : n ≤ 100) :
    evenOddCall e n = evenOddSpec e n := by
  have hnq : (n : ℚ) ≤ 100 := by exact_mod_cast hn
  have heq : (e : ℚ) ≤ n := by exact_mod_cast he
  have hn0 : (0 : ℚ) ≤ n := Nat.cast_nonneg n
  have he0 : (0 : ℚ) ≤ e := Nat.cast_nonneg e
  obtain ⟨r55, h55, c55⟩ := sameFloor_spec _ _ (mul_055_table ⟨n, by omega⟩)
  obtain ⟨r45, h45, c45⟩ := sameCeil_spec _ _ (mul_045_table ⟨n, by omega⟩)
  simp only [] at h55 h45 c55 c45
  have g55 : jsGt (ofNat e) (jsMul (ofNat n) (jsLit (55 / 100)))
      = decide ((55 : ℚ) / 100 * n < e) := by
    rw [h55]
    simp only [jsGt, jsLt, ofNat]
    have := c55 (e : ℤ)
    simp only [Int.cast_natCast] at this
    simp only [this]
  have g45 : jsLt (ofNat e) (jsMul (ofNat n) (jsLit (45 / 100)))
      = decide ((e : ℚ) < 45 / 100 * n) := by
    rw [h45]
    simp only [jsLt, ofNat]
    have := c45 (e : ℤ)
    simp only [Int.cast_natCast] at this
    simp only [this]
  have hhalf := mul_half n hn
  have hodd : jsAdd 50 (jsSub (ofNat e) (JSNum.fin ((n : ℚ) / 2)))
      = JSNum.fin (50 + ((e : ℚ) - n / 2)) := by
    rw [jsNum_lit]
    simp only [jsSub, jsNeg, ofNat, jsAdd]
    rw [fl_half_of ((e : ℚ) + -((n : ℚ) / 2)) (2 * (e : ℤ) - n) (by push_cast; ring)
      (by rw [abs_lt]; constructor <;> linarith)]
    simp only []
    rw [fl_half_of (50 + ((e : ℚ) + -((n : ℚ) / 2))) (100 + 2 * (e : ℤ) - n)
      (by push_cast; ring) (by rw [abs_lt]; constructor <;> linarith)]
    congr 1
    ring
  have heven : jsAdd 50 (jsSub (JSNum.fin ((n : ℚ) / 2)) (ofNat e))
      = JSNum.fin (50 + ((n : ℚ) / 2 - e)) := by
    rw [jsNum_lit]
    simp only [jsSub, jsNeg, ofNat, jsAdd]
    rw [fl_half_of ((n : ℚ) / 2 + -(e : ℚ)) ((n : ℤ) - 2 * e) (by push_cast; ring)
      (by rw [abs_lt]; constructor <;> linarith)]
    simp only []
    rw [fl_half_of (50 + ((n : ℚ) / 2 + -(e : ℚ))) (100 + (n : ℤ) - 2 * e)
      (by push_cast; ring) (by rw [abs_lt]; constructor <;> linarith)]
    congr 1
    ring
  have h30 : clampConfidence 30 = JSNum.fin 30 := by
    rw [jsNum_lit, clampConfidence_fin]
    norm_num [clampQ]
  unfold evenOddCall evenOddSpec
  simp only [g55, g45, hhalf, decide_eq_true_eq]
  split_ifs
  · simp only [hodd, clampConfidence_fin]
  · simp only [heven, clampConfidence_fin]
  · simp only [h30]


/-- C4. For every window of `n ≤ max_ticks` ticks of which `e` have an even digit, under
`even_odd` the call `generatePrediction` returns `ODD` with `clamp (50 + (e - n/2))` when
`e > 0.55 n`, otherwise `EVEN` with `clamp (50 + (n/2 - e))` when `e < 0.45 n`, otherwise
`HOLD` with `30`, where `clamp` restricts to `[10, 95]`, the comparisons and the sums are
those of exact arithmetic and `e`, `n` are raw counts; for `e = 8`, `n = 10` the result is
`ODD` with confidence `53`. -/
theorem C4_even_odd_call (s : State) (hs : s.currentStrategy = "even_odd")
    (hlen : s.ticks.length ≤ CONFIG.max_ticks) :
    generatePrediction s =
      (if (55 : ℚ) / 100 * s.ticks.length < (s.ticks.filter isEven).length then
        { result := "ODD",
          confidence := JSNum.fin (min (max
            (50 + (((s.ticks.filter isEven).length : ℚ) - s.ticks.length / 2)) 10) 95) }
      else if ((s.ticks.filter isEven).length : ℚ) < 45 / 100 * s.ticks.length then
        { result := "EVEN",
          confidence := JSNum.fin (min (max
            (50 + ((s.ticks.length : ℚ) / 2 - (s.ticks.filter isEven).length)) 10) 95) }
      else
        { result := "HOLD", confidence := JSNum.fin 30 }) ∧
    generatePrediction (stateOf "even_odd" [2, 4, 6, 8, 0, 2, 4, 6, 1, 9])
      = { result := "ODD", confidence := JSNum.fin 53 } := by
  refine ⟨?_, by decide!⟩
  rw [generatePrediction_even_odd s hs,
    evenOddCall_eq_spec _ _ (List.length_filter_le _ _) hlen]
  rfl

/-- C4, at the window of digits `2,4,6,8,0,2,4,6,1,9`: eight even digits out of ten. -/
theorem C4_even_odd_call_witness :
    (stateOf "even_odd" [2, 4, 6, 8, 0, 2, 4, 6, 1, 9]).ticks.length ≤ CONFIG.max_ticks ∧
    generatePrediction (stateOf "even_odd" [2, 4, 6, 8, 0, 2, 4, 6, 1, 9])
      = { result := "ODD", confidence := JSNum.fin 53 } :=
  ⟨by decide,
    (C4_even_odd_call (stateOf "even_odd" [2, 4, 6, 8, 0, 2, 4, 6, 1, 9]) rfl
      (by decide)).1.trans (by decide!)⟩


/-! ## Range of the confidence -/

theorem clampQ_range (c : ℚ) : 10 ≤ clampQ c ∧ clampQ c ≤ 95 := by
  unfold clampQ
  exact ⟨le_min (le_max_right _ _) (by norm_num), min_le_right _ _⟩

/-- Away from the empty window under `matches_differs`, the confidence of
`generatePrediction` on at most `max_ticks` ticks is a number in `[10, 95]`. -/
theorem confidence_in_range (s : State) (hlen : s.ticks.length ≤ CONFIG.max_ticks)
    (h : s.ticks ≠ [] ∨ s.currentStrategy ≠ "matches_differs") :
    ∃ c : ℚ, (generatePrediction s).confidence = JSNum.fin c ∧ 10 ≤ c ∧ c ≤ 95 := by
  by_cases h1 : s.currentStrategy = "even_odd"
  · rw [generatePrediction_even_odd s h1,
      evenOddCall_eq_spec _ _ (List.length_filter_le _ _) hlen]
    unfold evenOddSpec
    split_ifs
    · exact ⟨_, rfl, clampQ_range _⟩
    · exact ⟨_, rfl, clampQ_range _⟩
    · exact ⟨30, rfl, by norm_num, by norm_num⟩
  · by_cases h2 : s.currentStrategy = "matches_differs"
    · have hne : s.ticks ≠ [] := h.resolve_right (not_not.mpr h2)
      obtain ⟨_, _, u, _, _, _, _, _, _, h90, _, _, _, hfin⟩ := matches_core s h2 hne
      exact ⟨min u 95, hfin, le_min (by linarith) (by norm_num), min_le_right _ _⟩
    · have h65 : clampConfidence 65 = JSNum.fin 65 := by
        rw [jsNum_lit, clampConfidence_fin]
        norm_num [clampQ]
      refine ⟨65, ?_, by norm_num, by norm_num⟩
      simp only [generatePrediction, h1, h2, if_false]
      split_ifs <;> exact h65

end Koi
